import Mathlib

/-!
Verification of the `rust-life` Game of Life engine (`src/life.rs`).

The Rust engine stores a sparse world as `FxHashMap<(i32, i32), LifeCell>`.
We embed it as an association list keyed by integer coordinates, with
first-occurrence lookup semantics; reachable states keep their keys
duplicate-free, matching the hash map.  `num_neighbors` is a `u8` in the
source holding values in `[0, 8]`; we embed it as `Nat` (Rust's
`num_neighbors -= 1` is `u8` subtraction, which never underflows on states
satisfying the neighbor-count invariant proved below, so `Nat` truncated
subtraction agrees with it there).  Coordinates are embedded as unbounded
`Int` (the spec's data model); a second, `i32`-overflow-checked variant of
`set_cell` is given further down to study behavior at the `i32` extremes,
where Rust's `x + dx` overflows (a panic in debug builds).
-/

/-- Cell record, from `struct LifeCell` in `src/life.rs`. -/
structure LifeCell where
  alive : Bool
  num_neighbors : Nat
deriving DecidableEq, Repr

/-- `LifeCell::new` in `src/life.rs`: starts with `num_neighbors = 0`. -/
def LifeCell.new (alive : Bool) : LifeCell :=
  { alive := alive, num_neighbors := 0 }

/-- A grid coordinate, `(i32, i32)` in the source, embedded as `Int × Int`. -/
abbrev Coord := Int × Int

/-- The sparse active set: association list standing for the `FxHashMap`. -/
abbrev CellMap := List (Coord × LifeCell)

/-- Lookup (first occurrence), modelling `HashMap::get`. -/
def findCell : CellMap → Coord → Option LifeCell
  | [], _ => none
  | (q, c) :: rest, p => if q = p then some c else findCell rest p

/-- Insert-or-update (first occurrence), modelling `HashMap::insert` /
`Entry::or_insert` / in-place mutation through an occupied entry. -/
def setEntry : CellMap → Coord → LifeCell → CellMap
  | [], p, c => [(p, c)]
  | (q, c0) :: rest, p, c =>
    if q = p then (q, c) :: rest else (q, c0) :: setEntry rest p c

/-- Remove (first occurrence), modelling `OccupiedEntry::remove`. -/
def removeEntry : CellMap → Coord → CellMap
  | [], _ => []
  | (q, c0) :: rest, p =>
    if q = p then rest else (q, c0) :: removeEntry rest p

/-- World state, from `struct LifeWorld` in `src/life.rs`. -/
structure LifeWorld where
  active_cells : CellMap
  generations : Nat
deriving DecidableEq, Repr

/-- `LifeWorld::new`. -/
def LifeWorld.new : LifeWorld :=
  { active_cells := [], generations := 0 }

/-- `LifeWorld::get`. -/
def LifeWorld.get (w : LifeWorld) (x y : Int) : Option Bool :=
  (findCell w.active_cells (x, y)).map (·.alive)

/-- `LifeWorld::alive` (`get(x, y).unwrap_or(false)`). -/
def LifeWorld.alive (w : LifeWorld) (x y : Int) : Bool :=
  (w.get x y).getD false

/-- Alive-status of a coordinate straight from a cell map (the same
`get(..).unwrap_or(false)` reading used by `LifeWorld::alive`). -/
def aliveAt (cells : CellMap) (p : Coord) : Bool :=
  ((findCell cells p).map (·.alive)).getD false

/-- The 8 Moore offsets `(dx, dy)` in the iteration order of the Rust loop
`for dy in -1..=1 { for dx in -1..=1 { if dx == 0 && dy == 0 { continue } .. } }`. -/
def mooreOffsets : List (Int × Int) :=
  [(-1, -1), (0, -1), (1, -1), (-1, 0), (1, 0), (-1, 1), (0, 1), (1, 1)]

/-- Body of the neighbor loop of `LifeWorld::set_cell` for one offset `o`:
the optional self-increment (`if new && self.alive(x+dx, y+dy)` … `and_modify`),
then either `entry(..).or_insert(LifeCell::new(false)).num_neighbors += 1`
(when raising) or the decrement-and-trim arm (when lowering). -/
def stepNeighbor (p : Coord) (alive new : Bool) (cells : CellMap) (o : Int × Int) : CellMap :=
  let q : Coord := (p.1 + o.1, p.2 + o.2)
  let cells1 :=
    if new && aliveAt cells q then
      match findCell cells p with
      | some c => setEntry cells p { c with num_neighbors := c.num_neighbors + 1 }
      | none => cells
    else cells
  if alive then
    match findCell cells1 q with
    | some c => setEntry cells1 q { c with num_neighbors := c.num_neighbors + 1 }
    | none => setEntry cells1 q { LifeCell.new false with num_neighbors := 0 + 1 }
  else
    match findCell cells1 q with
    | some c =>
      let c1 : LifeCell := { c with num_neighbors := c.num_neighbors - 1 }
      if c1.num_neighbors == 0 && !c1.alive then removeEntry cells1 q
      else setEntry cells1 q c1
    | none => cells1

/-- The full neighbor loop of `LifeWorld::set_cell`. -/
def applyNeighbors (cells : CellMap) (p : Coord) (alive new : Bool) : CellMap :=
  mooreOffsets.foldl (stepNeighbor p alive new) cells

/-- Final block of `LifeWorld::set_cell`: remove the target cell if it ended
dead with zero neighbors. -/
def trimSelf (cells : CellMap) (p : Coord) : CellMap :=
  match findCell cells p with
  | some c => if c.num_neighbors == 0 && !c.alive then removeEntry cells p else cells
  | none => cells

/-- `LifeWorld::set_cell`, the single mutation primitive.  Mirrors the Rust
exactly: the entry is written (occupied) or inserted (vacant) first, then the
early return on `!dirty` — note that in the vacant, `alive = false` case this
leaves a dead record with `num_neighbors = 0` in the map. -/
def LifeWorld.set_cell (w : LifeWorld) (x y : Int) (alive : Bool) : LifeWorld :=
  match findCell w.active_cells (x, y) with
  | some cell =>
    let dirty := cell.alive != alive
    let cells := setEntry w.active_cells (x, y) { cell with alive := alive }
    if !dirty then { w with active_cells := cells }
    else { w with active_cells := trimSelf (applyNeighbors cells (x, y) alive false) (x, y) }
  | none =>
    let cells := setEntry w.active_cells (x, y) (LifeCell.new alive)
    let dirty := alive
    let new := alive
    if !dirty then { w with active_cells := cells }
    else { w with active_cells := trimSelf (applyNeighbors cells (x, y) alive new) (x, y) }

/-- `LifeWorld::raise`. -/
def LifeWorld.raise (w : LifeWorld) (x y : Int) : LifeWorld :=
  w.set_cell x y true

/-- `LifeWorld::lower`. -/
def LifeWorld.lower (w : LifeWorld) (x y : Int) : LifeWorld :=
  w.set_cell x y false

/-- `LifeWorld::toggle`. -/
def LifeWorld.toggle (w : LifeWorld) (x y : Int) : LifeWorld :=
  w.set_cell x y (!(w.alive x y))

/-- The classification `match` inside `LifeWorld::evolve`: `some b` means the
cell's alive status must change to `b`; `none` means no change. -/
def evolveDelta (c : LifeCell) : Option Bool :=
  if c.alive then
    if c.num_neighbors == 2 || c.num_neighbors == 3 then none else some false
  else
    if c.num_neighbors == 3 then some true else none

/-- The delta list collected by `LifeWorld::evolve` before mutating
(map-iteration order stands in as list order). -/
def evolveDeltas (w : LifeWorld) : List (Bool × Coord) :=
  w.active_cells.filterMap (fun e => (evolveDelta e.2).map (fun b => (b, e.1)))

/-- Apply a list of deltas through `set_cell`, as the second loop of
`LifeWorld::evolve` does. -/
def applyDeltas (w : LifeWorld) (ds : List (Bool × Coord)) : LifeWorld :=
  ds.foldl (fun acc d => acc.set_cell d.2.1 d.2.2 d.1) w

/-- `LifeWorld::evolve`. -/
def LifeWorld.evolve (w : LifeWorld) : LifeWorld :=
  let w1 := applyDeltas w (evolveDeltas w)
  { w1 with generations := w1.generations + 1 }

/-- `LifeWorld::num_alive`: count of stored cells with `alive = true`. -/
def LifeWorld.num_alive (w : LifeWorld) : Nat :=
  (w.active_cells.filter (·.2.alive)).length

/-- The coordinates currently stored as alive (dead frontier excluded). -/
def alivePositions (w : LifeWorld) : List Coord :=
  (w.active_cells.filter (·.2.alive)).map (·.1)

/-- `enum LifePattern` from `src/life.rs`. -/
inductive LifePattern where
  | blank
  | glider
  | blinker
  | beacon
  | random (size : Nat)
deriving DecidableEq, Repr

/-- `(size as f64).sqrt().round()` for a nonnegative integer argument:
the nearest integer to `√n` (never a tie, since `√n = k + 1/2` would force
`n = k² + k + 1/4 ∉ ℕ`); agrees with the `f64` computation wherever the
latter is exact.  `Nat.findGreatest` computes `⌊√n⌋`; rounding up happens
exactly when `n > s² + s`, i.e. `√n > s + 1/2`. -/
def roundSqrt (n : Nat) : Nat :=
  let s := Nat.findGreatest (fun s => s * s ≤ n) n
  if s * s + s < n then s + 1 else s

/-- `LifeWorld::from(pattern)`.  The `Random` arm consumes successive draws of
`random::<i32>()` from the stream `rng` (draw index argument), two per raised
cell, and bounds each by Rust's `%` (truncated remainder, `Int.tmod`). -/
def LifeWorld.fromPattern (pattern : LifePattern) (rng : Nat → Int) : LifeWorld :=
  match pattern with
  | .blank => LifeWorld.new
  | .glider =>
    ((((LifeWorld.new.raise 0 0).raise 1 0).raise 2 0).raise 2 1).raise 1 2
  | .blinker =>
    ((LifeWorld.new.raise 0 0).raise 0 1).raise 0 2
  | .beacon =>
    (((((((LifeWorld.new.raise 0 0).raise 0 1).raise 1 0).raise 1 1).raise
        2 2).raise 3 2).raise 2 3).raise 3 3
  | .random size =>
    let side : Int := (roundSqrt size : Nat)
    (List.range size).foldl
      (fun acc i => acc.raise ((rng (2 * i)).tmod side) ((rng (2 * i + 1)).tmod side))
      LifeWorld.new

/-! ### Spec section 3 invariants, stated on the embedding -/

/-- Keys of the map are pairwise distinct (a hash map guarantee). -/
def keysNodup (cells : CellMap) : Prop :=
  (cells.map (·.1)).Nodup

/-- The 8 Moore-neighbor coordinates of `p`, in loop order. -/
def mooreList (p : Coord) : List Coord :=
  mooreOffsets.map (fun o => (p.1 + o.1, p.2 + o.2))

/-- The true number of live (stored, `alive = true`) cells among the 8 Moore
neighbors of `p`. -/
def liveCountAt (cells : CellMap) (p : Coord) : Nat :=
  ((mooreList p).filter (fun q => aliveAt cells q)).length

/-- §3 invariant: every stored `num_neighbors` equals the true live-neighbor
count. -/
def countsOK (cells : CellMap) : Prop :=
  ∀ e ∈ cells, e.2.num_neighbors = liveCountAt cells e.1

/-- §3 invariant: every Moore neighbor of a live cell is stored. -/
def closureOK (cells : CellMap) : Prop :=
  ∀ e ∈ cells, e.2.alive = true →
    ∀ o ∈ mooreOffsets, (findCell cells (e.1.1 + o.1, e.1.2 + o.2)).isSome = true

/-- §3 invariant: a stored cell is alive or has a live neighbor. -/
def sparseOK (cells : CellMap) : Prop :=
  ∀ e ∈ cells, e.2.alive = true ∨ 0 < e.2.num_neighbors

/-- The invariants that the code actually preserves (see `C3` for the one it
does not). -/
def InvC (cells : CellMap) : Prop :=
  keysNodup cells ∧ countsOK cells ∧ closureOK cells

/-- All of spec §3: `InvC` plus sparseness. -/
def SpecInv (w : LifeWorld) : Prop :=
  InvC w.active_cells ∧ sparseOK w.active_cells

/-- Worlds reachable from the empty world by the public mutators. -/
inductive Reachable : LifeWorld → Prop where
  | new : Reachable LifeWorld.new
  | raise (w : LifeWorld) (x y : Int) : Reachable w → Reachable (w.raise x y)
  | lower (w : LifeWorld) (x y : Int) : Reachable w → Reachable (w.lower x y)
  | toggle (w : LifeWorld) (x y : Int) : Reachable w → Reachable (w.toggle x y)
  | evolve (w : LifeWorld) : Reachable w → Reachable w.evolve

/-! ### Decidability of the invariants on concrete worlds -/

instance keysNodup.instDecidable (cells : CellMap) : Decidable (keysNodup cells) := by
  unfold keysNodup; infer_instance

instance countsOK.instDecidable (cells : CellMap) : Decidable (countsOK cells) := by
  unfold countsOK; infer_instance

instance closureOK.instDecidable (cells : CellMap) : Decidable (closureOK cells) := by
  unfold closureOK; infer_instance

instance sparseOK.instDecidable (cells : CellMap) : Decidable (sparseOK cells) := by
  unfold sparseOK; infer_instance

instance InvC.instDecidable (cells : CellMap) : Decidable (InvC cells) := by
  unfold InvC; infer_instance

instance SpecInv.instDecidable (w : LifeWorld) : Decidable (SpecInv w) := by
  unfold SpecInv; infer_instance

/-! ### Lemmas about the association-list primitives -/

theorem findCell_setEntry_self (m : CellMap) (p : Coord) (c : LifeCell) :
    findCell (setEntry m p c) p = some c := by
  induction m with
  | nil => simp [setEntry, findCell]
  | cons e rest ih =>
    obtain ⟨q, c0⟩ := e
    by_cases h : q = p
    · simp [setEntry, h, findCell]
    · simp [setEntry, h, findCell, ih]

theorem findCell_setEntry_ne (m : CellMap) (p r : Coord) (c : LifeCell) (h : r ≠ p) :
    findCell (setEntry m p c) r = findCell m r := by
  have hpr : ¬ (p = r) := fun hh => h hh.symm
  induction m with
  | nil => simp [setEntry, findCell, hpr]
  | cons e rest ih =>
    obtain ⟨q, c0⟩ := e
    by_cases hq : q = p
    · subst hq
      simp [setEntry, findCell, hpr]
    · simp [setEntry, hq, findCell, ih]

theorem setEntry_eq_self (m : CellMap) (p : Coord) (c : LifeCell)
    (h : findCell m p = some c) : setEntry m p c = m := by
  induction m with
  | nil => simp [findCell] at h
  | cons e rest ih =>
    obtain ⟨q, c0⟩ := e
    by_cases hq : q = p
    · subst hq
      simp [findCell] at h
      simp [setEntry, h]
    · simp [findCell, hq] at h
      simp [setEntry, hq, ih h]

theorem findCell_removeEntry_ne (m : CellMap) (p r : Coord) (h : r ≠ p) :
    findCell (removeEntry m p) r = findCell m r := by
  have hpr : ¬ (p = r) := fun hh => h hh.symm
  induction m with
  | nil => simp [removeEntry]
  | cons e rest ih =>
    obtain ⟨q, c0⟩ := e
    by_cases hq : q = p
    · subst hq
      simp [removeEntry, findCell, hpr]
    · simp [removeEntry, hq, findCell, ih]

theorem mem_keys_of_findCell_isSome (m : CellMap) (p : Coord)
    (h : (findCell m p).isSome = true) : p ∈ m.map (·.1) := by
  induction m with
  | nil => simp [findCell] at h
  | cons e rest ih =>
    obtain ⟨q, c0⟩ := e
    by_cases hq : q = p
    · simp [hq]
    · simp [findCell, hq] at h
      simp [ih h]

theorem findCell_eq_none_of_not_mem_keys (m : CellMap) (p : Coord)
    (h : p ∉ m.map (·.1)) : findCell m p = none := by
  induction m with
  | nil => rfl
  | cons e rest ih =>
    obtain ⟨q, c0⟩ := e
    have hq : ¬ (q = p) := by
      intro hh
      exact h (by simp [hh])
    have hrest : p ∉ rest.map (·.1) := by
      intro hh
      exact h (by simp [hh])
    simp [findCell, hq, ih hrest]

theorem findCell_removeEntry_self (m : CellMap) (p : Coord) (h : keysNodup m) :
    findCell (removeEntry m p) p = none := by
  induction m with
  | nil => simp [removeEntry, findCell]
  | cons e rest ih =>
    obtain ⟨q, c0⟩ := e
    unfold keysNodup at h
    simp only [List.map_cons, List.nodup_cons] at h
    by_cases hq : q = p
    · subst hq
      simpa [removeEntry] using findCell_eq_none_of_not_mem_keys rest q h.1
    · simp [removeEntry, hq, findCell, ih h.2]

theorem mem_keys_setEntry (m : CellMap) (p r : Coord) (c : LifeCell) :
    r ∈ (setEntry m p c).map (·.1) ↔ r = p ∨ r ∈ m.map (·.1) := by
  induction m with
  | nil => simp [setEntry]
  | cons e rest ih =>
    obtain ⟨q, c0⟩ := e
    by_cases hq : q = p
    · subst hq
      simp [setEntry]
    · simp [setEntry, hq, ih]
      tauto

theorem removeEntry_sublist (m : CellMap) (p : Coord) : (removeEntry m p).Sublist m := by
  induction m with
  | nil => simp [removeEntry]
  | cons e rest ih =>
    obtain ⟨q, c0⟩ := e
    by_cases hq : q = p
    · simp [removeEntry, hq]
    · simpa [removeEntry, hq] using List.Sublist.cons₂ (q, c0) ih

theorem keysNodup_setEntry (m : CellMap) (p : Coord) (c : LifeCell)
    (h : keysNodup m) : keysNodup (setEntry m p c) := by
  induction m with
  | nil => simp [setEntry, keysNodup]
  | cons e rest ih =>
    obtain ⟨q, c0⟩ := e
    by_cases hq : q = p
    · subst hq
      unfold keysNodup at h ⊢
      simpa [setEntry] using h
    · unfold keysNodup at h ⊢
      simp only [List.map_cons, List.nodup_cons] at h
      simp only [setEntry, if_neg hq, List.map_cons, List.nodup_cons]
      refine ⟨fun hmem => ?_, ih h.2⟩
      rcases (mem_keys_setEntry rest p q c).mp hmem with h1 | h2
      · exact hq h1
      · exact h.1 h2

theorem keysNodup_removeEntry (m : CellMap) (p : Coord)
    (h : keysNodup m) : keysNodup (removeEntry m p) := by
  unfold keysNodup at h ⊢
  exact ((removeEntry_sublist m p).map (·.1)).nodup h

theorem mem_of_findCell_eq_some (m : CellMap) (p : Coord) (c : LifeCell)
    (h : findCell m p = some c) : (p, c) ∈ m := by
  induction m with
  | nil => simp [findCell] at h
  | cons e rest ih =>
    obtain ⟨q, c0⟩ := e
    by_cases hq : q = p
    · subst hq
      simp [findCell] at h
      simp [h]
    · simp [findCell, hq] at h
      simp [ih h]

theorem findCell_of_mem (m : CellMap) (p : Coord) (c : LifeCell)
    (hn : keysNodup m) (h : (p, c) ∈ m) : findCell m p = some c := by
  induction m with
  | nil => simp at h
  | cons e rest ih =>
    obtain ⟨q, c0⟩ := e
    unfold keysNodup at hn
    simp only [List.map_cons, List.nodup_cons] at hn
    rcases List.mem_cons.mp h with h1 | h2
    · have h1a : p = q := congrArg Prod.fst h1
      have h1b : c = c0 := congrArg Prod.snd h1
      subst h1a
      subst h1b
      simp [findCell]
    · by_cases hq : q = p
      · subst hq
        exact absurd (by simpa using List.mem_map_of_mem (·.1) h2) hn.1
      · simpa [findCell, hq] using ih hn.2 h2

/-! ### Lemmas about `aliveAt` -/

theorem aliveAt_setEntry (m : CellMap) (p r : Coord) (c : LifeCell) :
    aliveAt (setEntry m p c) r = if r = p then c.alive else aliveAt m r := by
  by_cases hr : r = p
  · subst hr
    simp [aliveAt, findCell_setEntry_self]
  · simp [aliveAt, findCell_setEntry_ne m p r c hr, hr]

theorem aliveAt_removeEntry (m : CellMap) (p r : Coord) (hn : keysNodup m) :
    aliveAt (removeEntry m p) r = if r = p then false else aliveAt m r := by
  by_cases hr : r = p
  · subst hr
    simp [aliveAt, findCell_removeEntry_self m r hn]
  · simp [aliveAt, findCell_removeEntry_ne m p r hr, hr]

theorem aliveAt_eq_true_iff (m : CellMap) (p : Coord) :
    aliveAt m p = true ↔ ∃ c, findCell m p = some c ∧ c.alive = true := by
  unfold aliveAt
  rcases h : findCell m p with _ | c
  · simp
  · simp

theorem aliveAt_of_findCell_none (m : CellMap) (p : Coord)
    (h : findCell m p = none) : aliveAt m p = false := by
  simp [aliveAt, h]

/-! ### Moore neighborhood geometry -/

theorem neg_mem_mooreOffsets (o : Int × Int) (h : o ∈ mooreOffsets) :
    ((-o.1, -o.2) : Int × Int) ∈ mooreOffsets := by
  simp [mooreOffsets] at h
  rcases h with h | h | h | h | h | h | h | h <;> subst h <;> decide

theorem mooreOffsets_nodup : mooreOffsets.Nodup := by decide

theorem mooreList_nodup (p : Coord) : (mooreList p).Nodup := by
  unfold mooreList
  refine List.Nodup.map ?_ mooreOffsets_nodup
  intro a b hab
  have h1 : p.1 + a.1 = p.1 + b.1 := congrArg Prod.fst hab
  have h2 : p.2 + a.2 = p.2 + b.2 := congrArg Prod.snd hab
  have ha1 : a.1 = b.1 := by omega
  have ha2 : a.2 = b.2 := by omega
  exact Prod.ext ha1 ha2

theorem self_not_mem_mooreList (p : Coord) : p ∉ mooreList p := by
  intro h
  simp only [mooreList, List.mem_map] at h
  obtain ⟨o, ho, heq⟩ := h
  have h1 : p.1 + o.1 = p.1 := congrArg Prod.fst heq
  have h2 : p.2 + o.2 = p.2 := congrArg Prod.snd heq
  have ho1 : o.1 = 0 := by omega
  have ho2 : o.2 = 0 := by omega
  have hoz : o = ((0 : Int), (0 : Int)) := Prod.ext ho1 ho2
  rw [hoz] at ho
  exact absurd ho (by decide)

theorem mem_mooreList_symm (p q : Coord) (h : q ∈ mooreList p) : p ∈ mooreList q := by
  simp only [mooreList, List.mem_map] at h ⊢
  obtain ⟨o, ho, heq⟩ := h
  refine ⟨(-o.1, -o.2), neg_mem_mooreOffsets o ho, ?_⟩
  have h1 : p.1 + o.1 = q.1 := congrArg Prod.fst heq
  have h2 : p.2 + o.2 = q.2 := congrArg Prod.snd heq
  exact Prod.ext (by omega) (by omega)

/-! ### Live-neighbor count lemmas -/

theorem filter_length_eq_add_one (l : List Coord) (a : Coord) (f g : Coord → Bool)
    (hn : l.Nodup) (ha : a ∈ l) (hfg : ∀ b ∈ l, b ≠ a → f b = g b)
    (hfa : f a = true) (hga : g a = false) :
    (l.filter f).length = (l.filter g).length + 1 := by
  induction l with
  | nil => simp at ha
  | cons b l' ih =>
    rw [List.nodup_cons] at hn
    by_cases hba : b = a
    · subst hba
      have hfilter : l'.filter f = l'.filter g := by
        apply List.filter_congr
        intro x hx
        exact hfg x (List.mem_cons_of_mem _ hx) (fun hxa => hn.1 (hxa ▸ hx))
      simp [List.filter_cons, hfa, hga, hfilter]
    · have ha' : a ∈ l' := by
        rcases List.mem_cons.mp ha with h | h
        · exact absurd h.symm hba
        · exact h
      have hrec := ih hn.2 ha' (fun x hx hxa => hfg x (List.mem_cons_of_mem _ hx) hxa)
      have hfb : f b = g b := hfg b (List.mem_cons_self b l') hba
      rw [List.filter_cons, List.filter_cons, hfb]
      cases hgb : g b <;> simp [hgb] <;> omega

theorem liveCountAt_congr (m m' : CellMap) (p : Coord)
    (h : ∀ r ∈ mooreList p, aliveAt m' r = aliveAt m r) :
    liveCountAt m' p = liveCountAt m p := by
  unfold liveCountAt
  rw [List.filter_congr h]

theorem liveCountAt_eq_of_agree_off (m m' : CellMap) (p z : Coord)
    (hagree : ∀ r, r ≠ z → aliveAt m' r = aliveAt m r) (hz : z ∉ mooreList p) :
    liveCountAt m' p = liveCountAt m p :=
  liveCountAt_congr m m' p (fun r hr => hagree r (fun hrz => hz (hrz ▸ hr)))

theorem liveCountAt_up (m m' : CellMap) (p z : Coord)
    (hagree : ∀ r, r ≠ z → aliveAt m' r = aliveAt m r)
    (hz : z ∈ mooreList p) (hmz : aliveAt m z = false) (hmz' : aliveAt m' z = true) :
    liveCountAt m' p = liveCountAt m p + 1 :=
  filter_length_eq_add_one (mooreList p) z _ _ (mooreList_nodup p) hz
    (fun b _ hb => hagree b hb) hmz' hmz

theorem liveCountAt_down (m m' : CellMap) (p z : Coord)
    (hagree : ∀ r, r ≠ z → aliveAt m' r = aliveAt m r)
    (hz : z ∈ mooreList p) (hmz : aliveAt m z = true) (hmz' : aliveAt m' z = false) :
    liveCountAt m p = liveCountAt m' p + 1 :=
  filter_length_eq_add_one (mooreList p) z _ _ (mooreList_nodup p) hz
    (fun b hb hbz => (hagree b hbz).symm) hmz hmz'

theorem liveCountAt_eq_zero_iff (m : CellMap) (p : Coord) :
    liveCountAt m p = 0 ↔ ∀ q ∈ mooreList p, aliveAt m q = false := by
  unfold liveCountAt
  simp [List.length_eq_zero, List.filter_eq_nil_iff]

theorem countsOK_find (m : CellMap) (hc : countsOK m) (p : Coord) (c : LifeCell)
    (h : findCell m p = some c) : c.num_neighbors = liveCountAt m p :=
  hc (p, c) (mem_of_findCell_eq_some m p c h)

theorem closure_isSome (m : CellMap) (hc : closureOK m) (r q : Coord)
    (hr : aliveAt m r = true) (hq : q ∈ mooreList r) : (findCell m q).isSome = true := by
  obtain ⟨c, hfind, hal⟩ := (aliveAt_eq_true_iff m r).mp hr
  have hmem := mem_of_findCell_eq_some m r c hfind
  simp only [mooreList, List.mem_map] at hq
  obtain ⟨o, ho, rfl⟩ := hq
  exact hc (r, c) hmem hal o ho

theorem liveCountAt_eq_zero_of_absent (m : CellMap) (hc : closureOK m) (p : Coord)
    (h : findCell m p = none) : liveCountAt m p = 0 := by
  rw [liveCountAt_eq_zero_iff]
  intro q hq
  cases hv : aliveAt m q
  · rfl
  · exfalso
    have hs := closure_isSome m hc q p hv (mem_mooreList_symm p q hq)
    rw [h] at hs
    simp at hs

/-! ### Offset arithmetic helpers -/

theorem offset_mem_mooreList (p : Coord) (o : Int × Int) (ho : o ∈ mooreOffsets) :
    ((p.1 + o.1, p.2 + o.2) : Coord) ∈ mooreList p :=
  List.mem_map_of_mem _ ho

theorem mooreOffsets_ne_zero : ∀ o ∈ mooreOffsets, ¬(o.1 = 0 ∧ o.2 = 0) := by decide

theorem offset_ne_self (p : Coord) (o : Int × Int) (ho : o ∈ mooreOffsets) :
    ((p.1 + o.1, p.2 + o.2) : Coord) ≠ p := by
  intro h
  have h1 : p.1 + o.1 = p.1 := congrArg Prod.fst h
  have h2 : p.2 + o.2 = p.2 := congrArg Prod.snd h
  exact mooreOffsets_ne_zero o ho ⟨by omega, by omega⟩

theorem offset_inj (p : Coord) (o o' : Int × Int)
    (h : ((p.1 + o.1, p.2 + o.2) : Coord) = (p.1 + o'.1, p.2 + o'.2)) : o = o' := by
  have h1 : p.1 + o.1 = p.1 + o'.1 := congrArg Prod.fst h
  have h2 : p.2 + o.2 = p.2 + o'.2 := congrArg Prod.snd h
  exact Prod.ext (by omega) (by omega)

theorem aliveAt_of_findCell_some (m : CellMap) (q : Coord) (c : LifeCell)
    (h : findCell m q = some c) : aliveAt m q = c.alive := by
  simp [aliveAt, h]

theorem liveCountAt_pos_of_alive_neighbor (m : CellMap) (q z : Coord)
    (hz : z ∈ mooreList q) (ha : aliveAt m z = true) : 0 < liveCountAt m q := by
  unfold liveCountAt
  have : z ∈ (mooreList q).filter (fun r => aliveAt m r) := List.mem_filter.mpr ⟨hz, ha⟩
  exact List.length_pos.mpr (List.ne_nil_of_mem this)

/-! ### The neighbor loop of `set_cell`, raising case -/

/-- Mid-loop state description while raising `p`: offsets in `done` are
processed, the rest untouched. -/
structure RaiseMid (base : CellMap) (p : Coord) (done : List (Int × Int))
    (cells : CellMap) : Prop where
  nodup : keysNodup cells
  alive_eq : ∀ r, aliveAt cells r = if r = p then true else aliveAt base r
  self : findCell cells p = some ⟨true, liveCountAt base p⟩
  processed : ∀ o ∈ done, findCell cells (p.1 + o.1, p.2 + o.2) =
      some ⟨aliveAt base (p.1 + o.1, p.2 + o.2),
            liveCountAt base (p.1 + o.1, p.2 + o.2) + 1⟩
  untouched : ∀ r, r ≠ p → (∀ o ∈ done, r ≠ ((p.1 + o.1, p.2 + o.2) : Coord)) →
      findCell cells r = findCell base r

theorem raiseStep (base : CellMap) (p : Coord) (new : Bool)
    (hInv : InvC base)
    (hnew : new = true → ∀ q ∈ mooreList p, aliveAt base q = false)
    (done : List (Int × Int)) (o : Int × Int) (ho : o ∈ mooreOffsets)
    (hod : ∀ o' ∈ done, o' ≠ o)
    (cells : CellMap) (hmid : RaiseMid base p done cells) :
    RaiseMid base p (o :: done) (stepNeighbor p true new cells o) := by
  obtain ⟨hnd, hcnt, hcl⟩ := hInv
  have hqp : ((p.1 + o.1, p.2 + o.2) : Coord) ≠ p := offset_ne_self p o ho
  have hqmoore : ((p.1 + o.1, p.2 + o.2) : Coord) ∈ mooreList p := offset_mem_mooreList p o ho
  have huntq : findCell cells (p.1 + o.1, p.2 + o.2) = findCell base (p.1 + o.1, p.2 + o.2) := by
    refine hmid.untouched _ hqp ?_
    intro o' ho' heq
    exact hod o' ho' (offset_inj p o o' heq).symm
  have hguard : (new && aliveAt cells (p.1 + o.1, p.2 + o.2)) = false := by
    cases hn : new
    · simp
    · simp only [Bool.true_and]
      rw [hmid.alive_eq _, if_neg hqp]
      exact hnew hn _ hqmoore
  unfold stepNeighbor
  simp only [hguard, if_false, Bool.false_eq_true, ite_false, if_true]
  rcases hfq : findCell base (p.1 + o.1, p.2 + o.2) with _ | c
  · rw [huntq, hfq]
    have hqdead : aliveAt base (p.1 + o.1, p.2 + o.2) = false :=
      aliveAt_of_findCell_none _ _ hfq
    have hqzero : liveCountAt base (p.1 + o.1, p.2 + o.2) = 0 :=
      liveCountAt_eq_zero_of_absent base hcl _ hfq
    constructor
    · exact keysNodup_setEntry _ _ _ hmid.nodup
    · intro r
      rw [aliveAt_setEntry]
      by_cases hr : r = (p.1 + o.1, p.2 + o.2)
      · subst hr
        simp [if_neg hqp, hqdead, LifeCell.new]
      · rw [if_neg hr, hmid.alive_eq r]
    · rw [findCell_setEntry_ne _ _ _ _ (Ne.symm hqp)]
      exact hmid.self
    · intro o' ho'
      rcases List.mem_cons.mp ho' with rfl | ho''
      · rw [findCell_setEntry_self]
        simp [LifeCell.new, hqdead, hqzero]
      · have hne : ((p.1 + o'.1, p.2 + o'.2) : Coord) ≠ (p.1 + o.1, p.2 + o.2) := by
          intro heq
          exact hod o' ho'' (offset_inj p o' o heq)
        rw [findCell_setEntry_ne _ _ _ _ hne]
        exact hmid.processed o' ho''
    · intro r hrp hrdone
      have hrq : r ≠ ((p.1 + o.1, p.2 + o.2) : Coord) := hrdone o (List.mem_cons_self o done)
      rw [findCell_setEntry_ne _ _ _ _ hrq]
      exact hmid.untouched r hrp (fun o' ho' => hrdone o' (List.mem_cons_of_mem o ho'))
  · rw [huntq, hfq]
    have hqalive : aliveAt base (p.1 + o.1, p.2 + o.2) = c.alive :=
      aliveAt_of_findCell_some _ _ _ hfq
    have hqcount : c.num_neighbors = liveCountAt base (p.1 + o.1, p.2 + o.2) :=
      countsOK_find base hcnt _ c hfq
    constructor
    · exact keysNodup_setEntry _ _ _ hmid.nodup
    · intro r
      rw [aliveAt_setEntry]
      by_cases hr : r = (p.1 + o.1, p.2 + o.2)
      · subst hr
        simp [if_neg hqp, hqalive]
      · rw [if_neg hr, hmid.alive_eq r]
    · rw [findCell_setEntry_ne _ _ _ _ (Ne.symm hqp)]
      exact hmid.self
    · intro o' ho'
      rcases List.mem_cons.mp ho' with rfl | ho''
      · rw [findCell_setEntry_self, hqalive, hqcount]
      · have hne : ((p.1 + o'.1, p.2 + o'.2) : Coord) ≠ (p.1 + o.1, p.2 + o.2) := by
          intro heq
          exact hod o' ho'' (offset_inj p o' o heq)
        rw [findCell_setEntry_ne _ _ _ _ hne]
        exact hmid.processed o' ho''
    · intro r hrp hrdone
      have hrq : r ≠ ((p.1 + o.1, p.2 + o.2) : Coord) := hrdone o (List.mem_cons_self o done)
      rw [findCell_setEntry_ne _ _ _ _ hrq]
      exact hmid.untouched r hrp (fun o' ho' => hrdone o' (List.mem_cons_of_mem o ho'))

theorem raiseLoop (base : CellMap) (p : Coord) (new : Bool)
    (hInv : InvC base)
    (hnew : new = true → ∀ q ∈ mooreList p, aliveAt base q = false)
    (rest : List (Int × Int)) :
    ∀ (done : List (Int × Int)), (∀ o ∈ rest, o ∈ mooreOffsets) →
      (∀ o ∈ rest, ∀ o' ∈ done, o' ≠ o) → rest.Nodup →
      ∀ cells, RaiseMid base p done cells →
      RaiseMid base p (rest.reverse ++ done) (rest.foldl (stepNeighbor p true new) cells) := by
  induction rest with
  | nil =>
    intro done _ _ _ cells hmid
    simpa using hmid
  | cons o rest ih =>
    intro done hmem hdis hnd cells hmid
    rw [List.nodup_cons] at hnd
    have hstep := raiseStep base p new hInv hnew done o (hmem o (List.mem_cons_self o rest))
      (fun o' ho' => hdis o (List.mem_cons_self o rest) o' ho') cells hmid
    have hdis' : ∀ o' ∈ rest, ∀ o'' ∈ (o :: done), o'' ≠ o' := by
      intro o' ho' o'' ho''
      rcases List.mem_cons.mp ho'' with rfl | hod
      · intro heq
        exact hnd.1 (heq ▸ ho')
      · exact hdis o' (List.mem_cons_of_mem o ho') o'' hod
    have hres := ih (o :: done)
      (fun o' ho' => hmem o' (List.mem_cons_of_mem o ho'))
      hdis' hnd.2 _ hstep
    have hlist : (o :: rest).reverse ++ done = rest.reverse ++ (o :: done) := by
      simp
    rw [List.foldl_cons, hlist]
    exact hres

theorem raiseMid_init (base : CellMap) (p : Coord) (hn : keysNodup base) :
    RaiseMid base p [] (setEntry base p ⟨true, liveCountAt base p⟩) := by
  constructor
  · exact keysNodup_setEntry _ _ _ hn
  · intro r
    rw [aliveAt_setEntry]
  · exact findCell_setEntry_self _ _ _
  · intro o ho
    simp at ho
  · intro r hrp _
    exact findCell_setEntry_ne _ _ _ _ hrp

theorem raiseMid_final (base : CellMap) (p : Coord) (done : List (Int × Int))
    (cells : CellMap) (hdone : ∀ o, o ∈ done ↔ o ∈ mooreOffsets)
    (hmid : RaiseMid base p done cells) :
    keysNodup (trimSelf cells p)
    ∧ ∀ r, findCell (trimSelf cells p) r =
        (if r = p then some ⟨true, liveCountAt base p⟩
         else if r ∈ mooreList p then some ⟨aliveAt base r, liveCountAt base r + 1⟩
         else findCell base r) := by
  have htrim : trimSelf cells p = cells := by
    unfold trimSelf
    rw [hmid.self]
    simp
  rw [htrim]
  refine ⟨hmid.nodup, ?_⟩
  intro r
  by_cases hrp : r = p
  · subst hrp
    simp [hmid.self]
  · rw [if_neg hrp]
    by_cases hrm : r ∈ mooreList p
    · rw [if_pos hrm]
      simp only [mooreList, List.mem_map] at hrm
      obtain ⟨o, ho, rfl⟩ := hrm
      exact hmid.processed o ((hdone o).mpr ho)
    · rw [if_neg hrm]
      refine hmid.untouched r hrp ?_
      intro o ho heq
      exact hrm (heq ▸ offset_mem_mooreList p o ((hdone o).mp ho))

/-- Extensional characterization of `set_cell _ _ true` (raising a cell that is
not currently alive) on maps satisfying the preserved invariants. -/
theorem set_cell_raise_char (w : LifeWorld) (x y : Int)
    (hInv : InvC w.active_cells)
    (hdead : aliveAt w.active_cells (x, y) = false) :
    keysNodup (w.set_cell x y true).active_cells
    ∧ (w.set_cell x y true).generations = w.generations
    ∧ ∀ r, findCell (w.set_cell x y true).active_cells r =
        (if r = ((x, y) : Coord) then
          some ⟨true, liveCountAt w.active_cells (x, y)⟩
        else if r ∈ mooreList (x, y) then
          some ⟨aliveAt w.active_cells r, liveCountAt w.active_cells r + 1⟩
        else findCell w.active_cells r) := by
  have hInv' := hInv
  obtain ⟨hnd, hcnt, hcl⟩ := hInv'
  rcases hf : findCell w.active_cells (x, y) with _ | cell
  · -- vacant entry: insert `LifeCell::new(true)` and loop with `new = true`
    have hnew : ∀ q ∈ mooreList (x, y), aliveAt w.active_cells q = false := by
      intro q hq
      cases hv : aliveAt w.active_cells q
      · rfl
      · exfalso
        have hs := closure_isSome _ hcl q (x, y) hv (mem_mooreList_symm _ q hq)
        rw [hf] at hs
        simp at hs
    have hzero : liveCountAt w.active_cells (x, y) = 0 :=
      liveCountAt_eq_zero_of_absent _ hcl _ hf
    have hcells : (w.set_cell x y true).active_cells =
        trimSelf (applyNeighbors
          (setEntry w.active_cells (x, y) ⟨true, liveCountAt w.active_cells (x, y)⟩)
          (x, y) true true) (x, y) := by
      simp only [LifeWorld.set_cell, hf, Bool.not_true, Bool.false_eq_true, if_false]
      rw [hzero]
      simp only [LifeCell.new]
    have hgen : (w.set_cell x y true).generations = w.generations := by
      simp only [LifeWorld.set_cell, hf, Bool.not_true, Bool.false_eq_true, if_false]
    have hmid := raiseLoop w.active_cells (x, y) true hInv (fun _ => hnew)
      mooreOffsets [] (fun o ho => ho) (by simp) mooreOffsets_nodup _
      (raiseMid_init w.active_cells (x, y) hnd)
    have hfin := raiseMid_final w.active_cells (x, y) (mooreOffsets.reverse ++ [])
      _ (by simp) hmid
    rw [hcells]
    exact ⟨hfin.1, hgen, hfin.2⟩
  · -- occupied, currently dead: flip alive and loop with `new = false`
    have hcellalive : cell.alive = false := by
      have := aliveAt_of_findCell_some _ _ _ hf
      rw [hdead] at this
      exact this.symm
    have hcc : cell.num_neighbors = liveCountAt w.active_cells (x, y) :=
      countsOK_find _ hcnt _ _ hf
    have hcells : (w.set_cell x y true).active_cells =
        trimSelf (applyNeighbors
          (setEntry w.active_cells (x, y) ⟨true, liveCountAt w.active_cells (x, y)⟩)
          (x, y) true false) (x, y) := by
      simp only [LifeWorld.set_cell, hf, hcellalive]
      rw [if_neg (by decide : ¬((!false != true) = true))]
      rw [hcc]
    have hgen : (w.set_cell x y true).generations = w.generations := by
      simp only [LifeWorld.set_cell, hf, hcellalive]
      rw [if_neg (by decide : ¬((!false != true) = true))]
    have hmid := raiseLoop w.active_cells (x, y) false hInv
      (fun h => (Bool.false_ne_true h).elim)
      mooreOffsets [] (fun o ho => ho) (by simp) mooreOffsets_nodup _
      (raiseMid_init w.active_cells (x, y) hnd)
    have hfin := raiseMid_final w.active_cells (x, y) (mooreOffsets.reverse ++ [])
      _ (by simp) hmid
    rw [hcells]
    exact ⟨hfin.1, hgen, hfin.2⟩

/-! ### The neighbor loop of `set_cell`, lowering case -/

/-- Mid-loop state description while lowering `p` (previously alive):
offsets in `done` are processed (decremented, possibly garbage-collected),
the rest untouched. -/
structure LowerMid (base : CellMap) (p : Coord) (done : List (Int × Int))
    (cells : CellMap) : Prop where
  nodup : keysNodup cells
  alive_eq : ∀ r, aliveAt cells r = if r = p then false else aliveAt base r
  self : findCell cells p = some ⟨false, liveCountAt base p⟩
  processed : ∀ o ∈ done, findCell cells (p.1 + o.1, p.2 + o.2) =
      (if aliveAt base (p.1 + o.1, p.2 + o.2) = false ∧
          liveCountAt base (p.1 + o.1, p.2 + o.2) = 1 then none
       else some ⟨aliveAt base (p.1 + o.1, p.2 + o.2),
                  liveCountAt base (p.1 + o.1, p.2 + o.2) - 1⟩)
  untouched : ∀ r, r ≠ p → (∀ o ∈ done, r ≠ ((p.1 + o.1, p.2 + o.2) : Coord)) →
      findCell cells r = findCell base r

theorem lowerStep (base : CellMap) (p : Coord)
    (hInv : InvC base) (hpalive : aliveAt base p = true)
    (done : List (Int × Int)) (o : Int × Int) (ho : o ∈ mooreOffsets)
    (hod : ∀ o' ∈ done, o' ≠ o)
    (cells : CellMap) (hmid : LowerMid base p done cells) :
    LowerMid base p (o :: done) (stepNeighbor p false false cells o) := by
  obtain ⟨hnd, hcnt, hcl⟩ := hInv
  have hqp : ((p.1 + o.1, p.2 + o.2) : Coord) ≠ p := offset_ne_self p o ho
  have hqmoore : ((p.1 + o.1, p.2 + o.2) : Coord) ∈ mooreList p := offset_mem_mooreList p o ho
  have huntq : findCell cells (p.1 + o.1, p.2 + o.2) = findCell base (p.1 + o.1, p.2 + o.2) := by
    refine hmid.untouched _ hqp ?_
    intro o' ho' heq
    exact hod o' ho' (offset_inj p o o' heq).symm
  have hsome : (findCell base (p.1 + o.1, p.2 + o.2)).isSome = true :=
    closure_isSome base hcl p _ hpalive hqmoore
  rcases hfq : findCell base (p.1 + o.1, p.2 + o.2) with _ | c
  · rw [hfq] at hsome
    simp at hsome
  · have hqalive : aliveAt base (p.1 + o.1, p.2 + o.2) = c.alive :=
      aliveAt_of_findCell_some _ _ _ hfq
    have hqcount : c.num_neighbors = liveCountAt base (p.1 + o.1, p.2 + o.2) :=
      countsOK_find base hcnt _ c hfq
    have hqpos : 0 < liveCountAt base (p.1 + o.1, p.2 + o.2) :=
      liveCountAt_pos_of_alive_neighbor base _ p
        (mem_mooreList_symm p _ hqmoore) hpalive
    unfold stepNeighbor
    simp only [Bool.false_and, Bool.false_eq_true, ite_false, if_false]
    rw [huntq, hfq]
    by_cases hc : aliveAt base (p.1 + o.1, p.2 + o.2) = false ∧
        liveCountAt base (p.1 + o.1, p.2 + o.2) = 1
    · -- the neighbor is garbage-collected
      have hbt : (({ c with num_neighbors := c.num_neighbors - 1 } : LifeCell).num_neighbors
          == 0 && !({ c with num_neighbors := c.num_neighbors - 1 } : LifeCell).alive) = true := by
        obtain ⟨h1, h2⟩ := hc
        rw [h1] at hqalive
        rw [h2] at hqcount
        simp [hqcount, ← hqalive]
      simp only [hbt, if_true]
      constructor
      · exact keysNodup_removeEntry _ _ hmid.nodup
      · intro r
        rw [aliveAt_removeEntry _ _ _ hmid.nodup]
        by_cases hr : r = (p.1 + o.1, p.2 + o.2)
        · subst hr
          rw [if_pos rfl, if_neg hqp, hc.1]
        · rw [if_neg hr, hmid.alive_eq r]
      · rw [findCell_removeEntry_ne _ _ _ (Ne.symm hqp)]
        exact hmid.self
      · intro o' ho'
        rcases List.mem_cons.mp ho' with rfl | ho''
        · rw [findCell_removeEntry_self _ _ hmid.nodup, if_pos hc]
        · have hne : ((p.1 + o'.1, p.2 + o'.2) : Coord) ≠ (p.1 + o.1, p.2 + o.2) := by
            intro heq
            exact hod o' ho'' (offset_inj p o' o heq)
          rw [findCell_removeEntry_ne _ _ _ hne]
          exact hmid.processed o' ho''
      · intro r hrp hrdone
        have hrq : r ≠ ((p.1 + o.1, p.2 + o.2) : Coord) := hrdone o (List.mem_cons_self o done)
        rw [findCell_removeEntry_ne _ _ _ hrq]
        exact hmid.untouched r hrp (fun o' ho' => hrdone o' (List.mem_cons_of_mem o ho'))
    · -- the neighbor stays, with a decremented count
      have hbf : (({ c with num_neighbors := c.num_neighbors - 1 } : LifeCell).num_neighbors
          == 0 && !({ c with num_neighbors := c.num_neighbors - 1 } : LifeCell).alive) = false := by
        rcases hca : c.alive
        · have hlc : liveCountAt base (p.1 + o.1, p.2 + o.2) ≠ 1 := by
            intro h1
            exact hc ⟨hqalive.trans hca, h1⟩
          have : c.num_neighbors - 1 ≠ 0 := by
            rw [hqcount]
            omega
          simp [this]
        · simp [hca]
      simp only [hbf, Bool.false_eq_true, if_false]
      constructor
      · exact keysNodup_setEntry _ _ _ hmid.nodup
      · intro r
        rw [aliveAt_setEntry]
        by_cases hr : r = (p.1 + o.1, p.2 + o.2)
        · subst hr
          rw [if_pos rfl, if_neg hqp, hqalive]
        · rw [if_neg hr, hmid.alive_eq r]
      · rw [findCell_setEntry_ne _ _ _ _ (Ne.symm hqp)]
        exact hmid.self
      · intro o' ho'
        rcases List.mem_cons.mp ho' with rfl | ho''
        · rw [findCell_setEntry_self, if_neg hc, hqalive, hqcount]
        · have hne : ((p.1 + o'.1, p.2 + o'.2) : Coord) ≠ (p.1 + o.1, p.2 + o.2) := by
            intro heq
            exact hod o' ho'' (offset_inj p o' o heq)
          rw [findCell_setEntry_ne _ _ _ _ hne]
          exact hmid.processed o' ho''
      · intro r hrp hrdone
        have hrq : r ≠ ((p.1 + o.1, p.2 + o.2) : Coord) := hrdone o (List.mem_cons_self o done)
        rw [findCell_setEntry_ne _ _ _ _ hrq]
        exact hmid.untouched r hrp (fun o' ho' => hrdone o' (List.mem_cons_of_mem o ho'))

theorem lowerLoop (base : CellMap) (p : Coord)
    (hInv : InvC base) (hpalive : aliveAt base p = true)
    (rest : List (Int × Int)) :
    ∀ (done : List (Int × Int)), (∀ o ∈ rest, o ∈ mooreOffsets) →
      (∀ o ∈ rest, ∀ o' ∈ done, o' ≠ o) → rest.Nodup →
      ∀ cells, LowerMid base p done cells →
      LowerMid base p (rest.reverse ++ done) (rest.foldl (stepNeighbor p false false) cells) := by
  induction rest with
  | nil =>
    intro done _ _ _ cells hmid
    simpa using hmid
  | cons o rest ih =>
    intro done hmem hdis hnd cells hmid
    rw [List.nodup_cons] at hnd
    have hstep := lowerStep base p hInv hpalive done o (hmem o (List.mem_cons_self o rest))
      (fun o' ho' => hdis o (List.mem_cons_self o rest) o' ho') cells hmid
    have hdis' : ∀ o' ∈ rest, ∀ o'' ∈ (o :: done), o'' ≠ o' := by
      intro o' ho' o'' ho''
      rcases List.mem_cons.mp ho'' with rfl | hod
      · intro heq
        exact hnd.1 (heq ▸ ho')
      · exact hdis o' (List.mem_cons_of_mem o ho') o'' hod
    have hres := ih (o :: done)
      (fun o' ho' => hmem o' (List.mem_cons_of_mem o ho'))
      hdis' hnd.2 _ hstep
    have hlist : (o :: rest).reverse ++ done = rest.reverse ++ (o :: done) := by
      simp
    rw [List.foldl_cons, hlist]
    exact hres

theorem lowerMid_init (base : CellMap) (p : Coord) (hn : keysNodup base) :
    LowerMid base p [] (setEntry base p ⟨false, liveCountAt base p⟩) := by
  constructor
  · exact keysNodup_setEntry _ _ _ hn
  · intro r
    rw [aliveAt_setEntry]
  · exact findCell_setEntry_self _ _ _
  · intro o ho
    simp at ho
  · intro r hrp _
    exact findCell_setEntry_ne _ _ _ _ hrp

theorem lowerMid_final (base : CellMap) (p : Coord) (done : List (Int × Int))
    (cells : CellMap) (hdone : ∀ o, o ∈ done ↔ o ∈ mooreOffsets)
    (hmid : LowerMid base p done cells) :
    keysNodup (trimSelf cells p)
    ∧ ∀ r, findCell (trimSelf cells p) r =
        (if r = p then
          (if liveCountAt base p = 0 then none
           else some ⟨false, liveCountAt base p⟩)
        else if r ∈ mooreList p then
          (if aliveAt base r = false ∧ liveCountAt base r = 1 then none
           else some ⟨aliveAt base r, liveCountAt base r - 1⟩)
        else findCell base r) := by
  by_cases hk : liveCountAt base p = 0
  · have htrim : trimSelf cells p = removeEntry cells p := by
      unfold trimSelf
      rw [hmid.self]
      simp [hk]
    rw [htrim]
    refine ⟨keysNodup_removeEntry _ _ hmid.nodup, ?_⟩
    intro r
    by_cases hrp : r = p
    · subst hrp
      rw [findCell_removeEntry_self _ _ hmid.nodup, if_pos rfl, if_pos hk]
    · rw [findCell_removeEntry_ne _ _ _ hrp, if_neg hrp]
      by_cases hrm : r ∈ mooreList p
      · rw [if_pos hrm]
        simp only [mooreList, List.mem_map] at hrm
        obtain ⟨o, ho, rfl⟩ := hrm
        exact hmid.processed o ((hdone o).mpr ho)
      · rw [if_neg hrm]
        refine hmid.untouched r hrp ?_
        intro o ho heq
        exact hrm (heq ▸ offset_mem_mooreList p o ((hdone o).mp ho))
  · have htrim : trimSelf cells p = cells := by
      unfold trimSelf
      rw [hmid.self]
      simp [hk]
    rw [htrim]
    refine ⟨hmid.nodup, ?_⟩
    intro r
    by_cases hrp : r = p
    · subst hrp
      rw [hmid.self, if_pos rfl, if_neg hk]
    · rw [if_neg hrp]
      by_cases hrm : r ∈ mooreList p
      · rw [if_pos hrm]
        simp only [mooreList, List.mem_map] at hrm
        obtain ⟨o, ho, rfl⟩ := hrm
        exact hmid.processed o ((hdone o).mpr ho)
      · rw [if_neg hrm]
        refine hmid.untouched r hrp ?_
        intro o ho heq
        exact hrm (heq ▸ offset_mem_mooreList p o ((hdone o).mp ho))

/-- Extensional characterization of `set_cell _ _ false` on a currently live
cell, on maps satisfying the preserved invariants. -/
theorem set_cell_lower_char (w : LifeWorld) (x y : Int)
    (hInv : InvC w.active_cells)
    (halive : aliveAt w.active_cells (x, y) = true) :
    keysNodup (w.set_cell x y false).active_cells
    ∧ (w.set_cell x y false).generations = w.generations
    ∧ ∀ r, findCell (w.set_cell x y false).active_cells r =
        (if r = ((x, y) : Coord) then
          (if liveCountAt w.active_cells (x, y) = 0 then none
           else some ⟨false, liveCountAt w.active_cells (x, y)⟩)
        else if r ∈ mooreList (x, y) then
          (if aliveAt w.active_cells r = false ∧ liveCountAt w.active_cells r = 1 then none
           else some ⟨aliveAt w.active_cells r, liveCountAt w.active_cells r - 1⟩)
        else findCell w.active_cells r) := by
  have hInv' := hInv
  obtain ⟨hnd, hcnt, hcl⟩ := hInv'
  obtain ⟨cell, hf, hcellalive⟩ := (aliveAt_eq_true_iff _ _).mp halive
  have hcc : cell.num_neighbors = liveCountAt w.active_cells (x, y) :=
    countsOK_find _ hcnt _ _ hf
  have hcells : (w.set_cell x y false).active_cells =
      trimSelf (applyNeighbors
        (setEntry w.active_cells (x, y) ⟨false, liveCountAt w.active_cells (x, y)⟩)
        (x, y) false false) (x, y) := by
    simp only [LifeWorld.set_cell, hf, hcellalive]
    rw [if_neg (by decide : ¬((!(true != false)) = true))]
    rw [hcc]
  have hgen : (w.set_cell x y false).generations = w.generations := by
    simp only [LifeWorld.set_cell, hf, hcellalive]
    rw [if_neg (by decide : ¬((!(true != false)) = true))]
  have hmid := lowerLoop w.active_cells (x, y) hInv halive
    mooreOffsets [] (fun o ho => ho) (by simp) mooreOffsets_nodup _
    (lowerMid_init w.active_cells (x, y) hnd)
  have hfin := lowerMid_final w.active_cells (x, y) (mooreOffsets.reverse ++ [])
    _ (by simp) hmid
  rw [hcells]
  exact ⟨hfin.1, hgen, hfin.2⟩

/-! ### Invariant preservation corollaries -/

theorem two_le_length_of_two_mem {α : Type} (l : List α) (a b : α)
    (ha : a ∈ l) (hb : b ∈ l) (hab : a ≠ b) : 2 ≤ l.length := by
  rcases l with _ | ⟨x, _ | ⟨y, t⟩⟩
  · simp at ha
  · simp at ha hb
    exact absurd (ha.trans hb.symm) hab
  · simp

theorem liveCountAt_two (m : CellMap) (q z1 z2 : Coord)
    (h1 : z1 ∈ mooreList q) (h2 : z2 ∈ mooreList q) (hne : z1 ≠ z2)
    (ha1 : aliveAt m z1 = true) (ha2 : aliveAt m z2 = true) :
    2 ≤ liveCountAt m q := by
  unfold liveCountAt
  exact two_le_length_of_two_mem _ z1 z2
    (List.mem_filter.mpr ⟨h1, ha1⟩) (List.mem_filter.mpr ⟨h2, ha2⟩) hne

theorem set_cell_raise_preserves (w : LifeWorld) (x y : Int)
    (hInv : InvC w.active_cells)
    (hdead : aliveAt w.active_cells (x, y) = false) :
    InvC (w.set_cell x y true).active_cells
    ∧ (sparseOK w.active_cells → sparseOK (w.set_cell x y true).active_cells)
    ∧ (∀ r, aliveAt (w.set_cell x y true).active_cells r =
        if r = ((x, y) : Coord) then true else aliveAt w.active_cells r) := by
  obtain ⟨hnodup', _, hchar⟩ := set_cell_raise_char w x y hInv hdead
  have hInv' := hInv
  obtain ⟨hnd, hcnt, hcl⟩ := hInv'
  set base := w.active_cells with hbase
  set after := (w.set_cell x y true).active_cells with hafter
  set p : Coord := (x, y) with hp
  have halive' : ∀ r, aliveAt after r = if r = p then true else aliveAt base r := by
    intro r
    by_cases hr : r = p
    · rw [if_pos hr, aliveAt, hchar r, if_pos hr]
      rfl
    · rw [if_neg hr, aliveAt, hchar r, if_neg hr]
      by_cases hrm : r ∈ mooreList p
      · rw [if_pos hrm]
        rfl
      · rw [if_neg hrm]
        rfl
  have hagree : ∀ r, r ≠ p → aliveAt after r = aliveAt base r := by
    intro r hr
    rw [halive' r, if_neg hr]
  have halivep : aliveAt after p = true := by
    rw [halive' p, if_pos rfl]
  have hcountmem : ∀ q, p ∈ mooreList q → liveCountAt after q = liveCountAt base q + 1 :=
    fun q hq => liveCountAt_up base after q p hagree hq hdead halivep
  have hcountnot : ∀ q, p ∉ mooreList q → liveCountAt after q = liveCountAt base q :=
    fun q hq => liveCountAt_eq_of_agree_off base after q p hagree hq
  have hcnt' : countsOK after := by
    intro e he
    have hfe : findCell after e.1 = some e.2 := findCell_of_mem _ _ _ hnodup' he
    rw [hchar e.1] at hfe
    by_cases h1 : e.1 = p
    · rw [if_pos h1] at hfe
      have he2 : e.2 = ⟨true, liveCountAt base p⟩ := (Option.some.inj hfe).symm
      have hlc : liveCountAt after p = liveCountAt base p :=
        hcountnot p (self_not_mem_mooreList p)
      rw [he2, h1, hlc]
    · rw [if_neg h1] at hfe
      by_cases h2 : e.1 ∈ mooreList p
      · rw [if_pos h2] at hfe
        have he2 : e.2 = ⟨aliveAt base e.1, liveCountAt base e.1 + 1⟩ :=
          (Option.some.inj hfe).symm
        have hlc : liveCountAt after e.1 = liveCountAt base e.1 + 1 :=
          hcountmem e.1 (mem_mooreList_symm p e.1 h2)
        rw [he2, hlc]
      · rw [if_neg h2] at hfe
        have hlc : liveCountAt after e.1 = liveCountAt base e.1 :=
          hcountnot e.1 (fun hmem => h2 (mem_mooreList_symm e.1 p hmem))
        rw [hlc]
        exact hcnt (e.1, e.2) (mem_of_findCell_eq_some _ _ _ hfe)
  have hcl' : closureOK after := by
    intro e he hal o ho
    rw [hchar _]
    split_ifs with h1 h2
    · simp
    · simp
    · by_cases hep : e.1 = p
      · exact absurd
          (by
            rw [show ((e.1.1 + o.1, e.1.2 + o.2) : Coord) = (p.1 + o.1, p.2 + o.2) from by
              rw [hep]]
            exact offset_mem_mooreList p o ho) h2
      · have halr : aliveAt base e.1 = true := by
          have hh := aliveAt_of_findCell_some after e.1 e.2 (findCell_of_mem _ _ _ hnodup' he)
          rw [halive' e.1, if_neg hep] at hh
          rw [hh, hal]
        have := closure_isSome base hcl e.1 _ halr (offset_mem_mooreList e.1 o ho)
        exact this
  have hsp' : sparseOK base → sparseOK after := by
    intro hsp e he
    have hfe : findCell after e.1 = some e.2 := findCell_of_mem _ _ _ hnodup' he
    rw [hchar e.1] at hfe
    split_ifs at hfe with h1 h2
    · left
      rw [← Option.some.inj hfe]
    · right
      rw [← Option.some.inj hfe]
      simp
    · exact hsp (e.1, e.2) (mem_of_findCell_eq_some _ _ _ hfe)
  exact ⟨⟨hnodup', hcnt', hcl'⟩, hsp', halive'⟩

theorem set_cell_lower_preserves (w : LifeWorld) (x y : Int)
    (hInv : InvC w.active_cells)
    (halive : aliveAt w.active_cells (x, y) = true) :
    InvC (w.set_cell x y false).active_cells
    ∧ (sparseOK w.active_cells → sparseOK (w.set_cell x y false).active_cells)
    ∧ (∀ r, aliveAt (w.set_cell x y false).active_cells r =
        if r = ((x, y) : Coord) then false else aliveAt w.active_cells r) := by
  obtain ⟨hnodup', _, hchar⟩ := set_cell_lower_char w x y hInv halive
  have hInv' := hInv
  obtain ⟨hnd, hcnt, hcl⟩ := hInv'
  set base := w.active_cells with hbase
  set after := (w.set_cell x y false).active_cells with hafter
  set p : Coord := (x, y) with hp
  have halive' : ∀ r, aliveAt after r = if r = p then false else aliveAt base r := by
    intro r
    by_cases hr : r = p
    · rw [if_pos hr, aliveAt, hchar r, if_pos hr]
      by_cases hk : liveCountAt base p = 0
      · rw [if_pos hk]
        rfl
      · rw [if_neg hk]
        rfl
    · rw [if_neg hr, aliveAt, hchar r, if_neg hr]
      by_cases hrm : r ∈ mooreList p
      · rw [if_pos hrm]
        by_cases hcond : aliveAt base r = false ∧ liveCountAt base r = 1
        · rw [if_pos hcond]
          simp [hcond.1]
        · rw [if_neg hcond]
          rfl
      · rw [if_neg hrm]
        rfl
  have hagree : ∀ r, r ≠ p → aliveAt after r = aliveAt base r := by
    intro r hr
    rw [halive' r, if_neg hr]
  have halivep : aliveAt after p = false := by
    rw [halive' p, if_pos rfl]
  have hcountmem : ∀ q, p ∈ mooreList q →
      liveCountAt base q = liveCountAt after q + 1 :=
    fun q hq => liveCountAt_down base after q p hagree hq halive halivep
  have hcountnot : ∀ q, p ∉ mooreList q → liveCountAt after q = liveCountAt base q :=
    fun q hq => liveCountAt_eq_of_agree_off base after q p hagree hq
  have hcnt' : countsOK after := by
    intro e he
    have hfe : findCell after e.1 = some e.2 := findCell_of_mem _ _ _ hnodup' he
    rw [hchar e.1] at hfe
    by_cases h1 : e.1 = p
    · rw [if_pos h1] at hfe
      by_cases hk : liveCountAt base p = 0
      · rw [if_pos hk] at hfe
        exact absurd hfe (by simp)
      · rw [if_neg hk] at hfe
        have he2 : e.2 = ⟨false, liveCountAt base p⟩ := (Option.some.inj hfe).symm
        have hlc : liveCountAt after p = liveCountAt base p :=
          hcountnot p (self_not_mem_mooreList p)
        rw [he2, h1, hlc]
    · rw [if_neg h1] at hfe
      by_cases h2 : e.1 ∈ mooreList p
      · rw [if_pos h2] at hfe
        by_cases hcond : aliveAt base e.1 = false ∧ liveCountAt base e.1 = 1
        · rw [if_pos hcond] at hfe
          exact absurd hfe (by simp)
        · rw [if_neg hcond] at hfe
          have he2 : e.2 = ⟨aliveAt base e.1, liveCountAt base e.1 - 1⟩ :=
            (Option.some.inj hfe).symm
          have hlc : liveCountAt base e.1 = liveCountAt after e.1 + 1 :=
            hcountmem e.1 (mem_mooreList_symm p e.1 h2)
          rw [he2]
          show liveCountAt base e.1 - 1 = liveCountAt after e.1
          omega
      · rw [if_neg h2] at hfe
        have hlc : liveCountAt after e.1 = liveCountAt base e.1 :=
          hcountnot e.1 (fun hmem => h2 (mem_mooreList_symm e.1 p hmem))
        rw [hlc]
        exact hcnt (e.1, e.2) (mem_of_findCell_eq_some _ _ _ hfe)
  have hcl' : closureOK after := by
    intro e he hal o ho
    have hfe : findCell after e.1 = some e.2 := findCell_of_mem _ _ _ hnodup' he
    have halr' : aliveAt after e.1 = true := by
      rw [aliveAt_of_findCell_some after e.1 e.2 hfe, hal]
    have hep : e.1 ≠ p := by
      intro hh
      rw [halive' e.1, if_pos hh] at halr'
      exact Bool.false_ne_true halr'
    have halr : aliveAt base e.1 = true := by
      rw [halive' e.1, if_neg hep] at halr'
      exact halr'
    rw [hchar _]
    split_ifs with h1 h2 h3 h4
    · -- the lowered cell p is a neighbor of the live cell e.1: its count is positive
      exfalso
      have hmem : e.1 ∈ mooreList p := by
        have hpm : p ∈ mooreList e.1 := by
          rw [← h1]
          exact offset_mem_mooreList e.1 o ho
        exact mem_mooreList_symm e.1 p hpm
      have := liveCountAt_pos_of_alive_neighbor base p e.1 hmem halr
      omega
    · simp
    · -- a shared neighbor cannot be garbage-collected: it has two live neighbors
      exfalso
      have hq1 : ((e.1.1 + o.1, e.1.2 + o.2) : Coord) ∈ mooreList e.1 :=
        offset_mem_mooreList e.1 o ho
      have hq2 : ((e.1.1 + o.1, e.1.2 + o.2) : Coord) ∈ mooreList p :=
        h3
      have hp1 : p ∈ mooreList ((e.1.1 + o.1, e.1.2 + o.2) : Coord) :=
        mem_mooreList_symm _ _ hq2
      have hp2 : e.1 ∈ mooreList ((e.1.1 + o.1, e.1.2 + o.2) : Coord) :=
        mem_mooreList_symm _ _ hq1
      have h2le := liveCountAt_two base _ p e.1 hp1 hp2 (fun hh => hep hh.symm) halive halr
      omega
    · simp
    · have := closure_isSome base hcl e.1 _ halr (offset_mem_mooreList e.1 o ho)
      exact this
  have hsp' : sparseOK base → sparseOK after := by
    intro hsp e he
    have hfe : findCell after e.1 = some e.2 := findCell_of_mem _ _ _ hnodup' he
    rw [hchar e.1] at hfe
    by_cases h1 : e.1 = p
    · rw [if_pos h1] at hfe
      by_cases hk : liveCountAt base p = 0
      · rw [if_pos hk] at hfe
        exact absurd hfe (by simp)
      · rw [if_neg hk] at hfe
        right
        have he2 : e.2 = ⟨false, liveCountAt base p⟩ := (Option.some.inj hfe).symm
        rw [he2]
        exact Nat.pos_of_ne_zero hk
    · rw [if_neg h1] at hfe
      by_cases h2 : e.1 ∈ mooreList p
      · rw [if_pos h2] at hfe
        by_cases hcond : aliveAt base e.1 = false ∧ liveCountAt base e.1 = 1
        · rw [if_pos hcond] at hfe
          exact absurd hfe (by simp)
        · rw [if_neg hcond] at hfe
          have he2 : e.2 = ⟨aliveAt base e.1, liveCountAt base e.1 - 1⟩ :=
            (Option.some.inj hfe).symm
          rcases hca : aliveAt base e.1
          · right
            rw [he2]
            have hpos : 0 < liveCountAt base e.1 :=
              liveCountAt_pos_of_alive_neighbor base e.1 p
                (mem_mooreList_symm p e.1 h2) halive
            have hne1 : liveCountAt base e.1 ≠ 1 := fun hh => hcond ⟨hca, hh⟩
            show 0 < liveCountAt base e.1 - 1
            omega
          · left
            rw [he2]
            exact hca
      · rw [if_neg h2] at hfe
        exact hsp (e.1, e.2) (mem_of_findCell_eq_some _ _ _ hfe)
  exact ⟨⟨hnodup', hcnt', hcl'⟩, hsp', halive'⟩

/-- Occupied entry whose state already matches: the call is a strict no-op
(the Rust writes the same value through the entry and returns early). -/
theorem set_cell_noop (w : LifeWorld) (x y : Int) (a : Bool) (c : LifeCell)
    (hf : findCell w.active_cells (x, y) = some c) (hca : c.alive = a) :
    w.set_cell x y a = w := by
  have hrec : ({ c with alive := a } : LifeCell) = c := by
    rw [← hca]
  have hset : setEntry w.active_cells (x, y) { c with alive := a } = w.active_cells := by
    rw [hrec]
    exact setEntry_eq_self _ _ _ hf
  simp only [LifeWorld.set_cell, hf, hca]
  rw [if_pos (by simp : (!(a != a)) = true)]
  rw [hset]

/-- Vacant entry, `alive = false`: the code inserts a dead record with
`num_neighbors = 0` and returns early — the record is left in the map. -/
theorem set_cell_junk (w : LifeWorld) (x y : Int)
    (hf : findCell w.active_cells (x, y) = none) :
    w.set_cell x y false =
      { w with active_cells := setEntry w.active_cells (x, y) (LifeCell.new false) } := by
  simp only [LifeWorld.set_cell, hf]
  rw [if_pos (by decide : (!false) = true)]

theorem set_cell_junk_preserves (w : LifeWorld) (x y : Int)
    (hInv : InvC w.active_cells)
    (hf : findCell w.active_cells (x, y) = none) :
    InvC (w.set_cell x y false).active_cells
    ∧ (∀ r, aliveAt (w.set_cell x y false).active_cells r =
        if r = ((x, y) : Coord) then false else aliveAt w.active_cells r) := by
  obtain ⟨hnd, hcnt, hcl⟩ := hInv
  have hcells : (w.set_cell x y false).active_cells =
      setEntry w.active_cells (x, y) (LifeCell.new false) := by
    rw [set_cell_junk w x y hf]
  rw [hcells]
  have halive' : ∀ r, aliveAt (setEntry w.active_cells (x, y) (LifeCell.new false)) r =
      if r = ((x, y) : Coord) then false else aliveAt w.active_cells r := by
    intro r
    rw [aliveAt_setEntry]
    by_cases hr : r = ((x, y) : Coord)
    · rw [if_pos hr, if_pos hr]
      rfl
    · rw [if_neg hr, if_neg hr]
  have hcount' : ∀ q, liveCountAt (setEntry w.active_cells (x, y) (LifeCell.new false)) q =
      liveCountAt w.active_cells q := by
    intro q
    refine liveCountAt_congr _ _ q ?_
    intro r _
    rw [halive' r]
    by_cases hr : r = ((x, y) : Coord)
    · rw [if_pos hr, hr]
      exact (aliveAt_of_findCell_none _ _ hf).symm
    · rw [if_neg hr]
  have hfind' : ∀ r, r ≠ ((x, y) : Coord) →
      findCell (setEntry w.active_cells (x, y) (LifeCell.new false)) r =
        findCell w.active_cells r :=
    fun r hr => findCell_setEntry_ne _ _ _ _ hr
  refine ⟨⟨keysNodup_setEntry _ _ _ hnd, ?_, ?_⟩, halive'⟩
  · intro e he
    rw [hcount' e.1]
    have hfe := findCell_of_mem _ _ _ (keysNodup_setEntry _ _ _ hnd) he
    by_cases h1 : e.1 = ((x, y) : Coord)
    · rw [h1, findCell_setEntry_self] at hfe
      have he2 : e.2 = LifeCell.new false := (Option.some.inj hfe).symm
      rw [he2, h1]
      exact (liveCountAt_eq_zero_of_absent _ hcl _ hf).symm
    · rw [hfind' e.1 h1] at hfe
      exact hcnt (e.1, e.2) (mem_of_findCell_eq_some _ _ _ hfe)
  · intro e he hal o ho
    have hfe := findCell_of_mem _ _ _ (keysNodup_setEntry _ _ _ hnd) he
    by_cases h1 : e.1 = ((x, y) : Coord)
    · rw [h1, findCell_setEntry_self] at hfe
      have he2 : e.2 = LifeCell.new false := (Option.some.inj hfe).symm
      rw [he2] at hal
      exact absurd hal (by simp [LifeCell.new])
    · rw [hfind' e.1 h1] at hfe
      by_cases hq : ((e.1.1 + o.1, e.1.2 + o.2) : Coord) = ((x, y) : Coord)
      · rw [hq, findCell_setEntry_self]
        simp
      · rw [hfind' _ hq]
        exact hcl (e.1, e.2) (mem_of_findCell_eq_some _ _ _ hfe) hal o ho

/-- Every `set_cell` call preserves the invariants the code maintains. -/
theorem set_cell_preserves_InvC (w : LifeWorld) (x y : Int) (a : Bool)
    (hInv : InvC w.active_cells) : InvC (w.set_cell x y a).active_cells := by
  cases ha : a
  · cases hv : aliveAt w.active_cells (x, y)
    · rcases hf : findCell w.active_cells (x, y) with _ | c
      · exact (set_cell_junk_preserves w x y hInv hf).1
      · have hca : c.alive = false := by
          have := aliveAt_of_findCell_some _ _ _ hf
          rw [hv] at this
          exact this.symm
        rw [set_cell_noop w x y false c hf hca]
        exact hInv
    · exact (set_cell_lower_preserves w x y hInv hv).1
  · cases hv : aliveAt w.active_cells (x, y)
    · exact (set_cell_raise_preserves w x y hInv hv).1
    · obtain ⟨c, hf, hca⟩ := (aliveAt_eq_true_iff _ _).mp hv
      rw [set_cell_noop w x y true c hf hca]
      exact hInv

/-- `set_cell` changes the alive-reading of exactly the target coordinate
(under the preserved invariants). -/
theorem set_cell_alive_update (w : LifeWorld) (x y : Int) (a : Bool)
    (hInv : InvC w.active_cells) :
    ∀ r, aliveAt (w.set_cell x y a).active_cells r =
      if r = ((x, y) : Coord) then a else aliveAt w.active_cells r := by
  cases ha : a
  · cases hv : aliveAt w.active_cells (x, y)
    · rcases hf : findCell w.active_cells (x, y) with _ | c
      · exact (set_cell_junk_preserves w x y hInv hf).2
      · have hca : c.alive = false := by
          have := aliveAt_of_findCell_some _ _ _ hf
          rw [hv] at this
          exact this.symm
        rw [set_cell_noop w x y false c hf hca]
        intro r
        by_cases hr : r = ((x, y) : Coord)
        · rw [if_pos hr, hr]
          exact hv
        · rw [if_neg hr]
    · exact (set_cell_lower_preserves w x y hInv hv).2.2
  · cases hv : aliveAt w.active_cells (x, y)
    · exact (set_cell_raise_preserves w x y hInv hv).2.2
    · obtain ⟨c, hf, hca⟩ := (aliveAt_eq_true_iff _ _).mp hv
      rw [set_cell_noop w x y true c hf hca]
      intro r
      by_cases hr : r = ((x, y) : Coord)
      · rw [if_pos hr, hr]
        exact hv
      · rw [if_neg hr]

/-- `set_cell` never changes the generation counter. -/
theorem set_cell_generations (w : LifeWorld) (x y : Int) (a : Bool) :
    (w.set_cell x y a).generations = w.generations := by
  unfold LifeWorld.set_cell
  rcases findCell w.active_cells (x, y) with _ | c
  · dsimp only
    split <;> rfl
  · dsimp only
    split <;> rfl

theorem applyDeltas_preserves_InvC (ds : List (Bool × Coord)) :
    ∀ w : LifeWorld, InvC w.active_cells → InvC (applyDeltas w ds).active_cells := by
  induction ds with
  | nil => intro w hInv; exact hInv
  | cons d t ih =>
    intro w hInv
    exact ih _ (set_cell_preserves_InvC w d.2.1 d.2.2 d.1 hInv)

theorem evolve_active_cells (w : LifeWorld) :
    w.evolve.active_cells = (applyDeltas w (evolveDeltas w)).active_cells := rfl

theorem evolve_preserves_InvC (w : LifeWorld) (hInv : InvC w.active_cells) :
    InvC w.evolve.active_cells := by
  rw [evolve_active_cells]
  exact applyDeltas_preserves_InvC _ w hInv

theorem reachable_InvC (w : LifeWorld) (h : Reachable w) : InvC w.active_cells := by
  induction h with
  | new => decide
  | raise w x y _ ih => exact set_cell_preserves_InvC w x y true ih
  | lower w x y _ ih => exact set_cell_preserves_InvC w x y false ih
  | toggle w x y _ ih => exact set_cell_preserves_InvC w x y _ ih
  | evolve w _ ih => exact evolve_preserves_InvC w ih

/-- C2: in every reachable world, the stored `num_neighbors` of every
coordinate in the active set equals the true number of stored live cells
among its 8 Moore neighbors. -/
theorem C2_neighbor_counts_exact (w : LifeWorld) (h : Reachable w) :
    ∀ e ∈ w.active_cells, e.2.num_neighbors = liveCountAt w.active_cells e.1 :=
  (reachable_InvC w h).2.1

theorem C2_neighbor_counts_exact_witness :
    Reachable (LifeWorld.new.raise 0 0)
    ∧ ∀ e ∈ (LifeWorld.new.raise 0 0).active_cells,
        e.2.num_neighbors = liveCountAt (LifeWorld.new.raise 0 0).active_cells e.1 :=
  ⟨Reachable.raise _ 0 0 Reachable.new,
   C2_neighbor_counts_exact _ (Reachable.raise _ 0 0 Reachable.new)⟩

/-- C6: in every reachable world, all 8 Moore-neighbor coordinates of every
live cell are present in the active set. -/
theorem C6_live_cells_closed (w : LifeWorld) (h : Reachable w) :
    ∀ e ∈ w.active_cells, e.2.alive = true →
      ∀ o ∈ mooreOffsets,
        (findCell w.active_cells (e.1.1 + o.1, e.1.2 + o.2)).isSome = true :=
  (reachable_InvC w h).2.2

theorem C6_live_cells_closed_witness :
    Reachable (LifeWorld.new.raise 0 0)
    ∧ ∀ e ∈ (LifeWorld.new.raise 0 0).active_cells, e.2.alive = true →
        ∀ o ∈ mooreOffsets,
          (findCell (LifeWorld.new.raise 0 0).active_cells
            (e.1.1 + o.1, e.1.2 + o.2)).isSome = true :=
  ⟨Reachable.raise _ 0 0 Reachable.new,
   C6_live_cells_closed _ (Reachable.raise _ 0 0 Reachable.new)⟩

/-- C3 fails on the code: `lower(0,0)` on the empty world (a reachable state)
stores a dead record with `num_neighbors = 0`, and `get` then answers
`Some(false)` instead of the claimed absence. -/
theorem C3_sparse_invariant_violated :
    Reachable (LifeWorld.new.lower 0 0)
    ∧ findCell (LifeWorld.new.lower 0 0).active_cells (0, 0) =
        some { alive := false, num_neighbors := 0 }
    ∧ (LifeWorld.new.lower 0 0).get 0 0 = some false
    ∧ ¬ sparseOK (LifeWorld.new.lower 0 0).active_cells :=
  ⟨Reachable.lower _ 0 0 Reachable.new, by decide, by decide, by decide⟩

/-- C4 fails on the code: requesting `alive = false` on an absent coordinate
(which "counts as dead") is not a no-op — it inserts a record. -/
theorem C4_noop_violated :
    (LifeWorld.new.lower 0 0).active_cells =
      [((0, 0), { alive := false, num_neighbors := 0 })]
    ∧ LifeWorld.new.lower 0 0 ≠ LifeWorld.new
    ∧ (LifeWorld.new.lower 0 0).get 0 0 ≠ LifeWorld.new.get 0 0 := by
  refine ⟨by decide, by decide, by decide⟩

/-! ### C8: the empty world is a fixed point of evolution -/

theorem evolve_of_empty (g : Nat) :
    ({ active_cells := [], generations := g } : LifeWorld).evolve =
      { active_cells := [], generations := g + 1 } := rfl

theorem evolveN_empty (N : Nat) :
    LifeWorld.evolve^[N] LifeWorld.new = { active_cells := [], generations := N } := by
  induction N with
  | zero => rfl
  | succ n ih =>
    rw [Function.iterate_succ_apply', ih, evolve_of_empty]

/-- C8: after `N` calls to `evolve()` on a fresh empty world, `generations`
equals `N` and `num_alive()` equals `0`. -/
theorem C8_empty_world_fixed_point (N : Nat) :
    (LifeWorld.evolve^[N] LifeWorld.new).generations = N
    ∧ (LifeWorld.evolve^[N] LifeWorld.new).num_alive = 0 := by
  rw [evolveN_empty]
  exact ⟨rfl, rfl⟩

/-! ### C5: glider translation after 4 generations -/

/-- C5 fails as stated: after 4 generations the glider's alive set is not the
original translated by `(+1, +1)` — e.g. `(1, -1)` is alive but is not in the
translate. -/
theorem C5_counterexample :
    ((1, -1) : Coord) ∈ alivePositions
        ((((LifeWorld.fromPattern .glider (fun _ => 0)).evolve).evolve).evolve).evolve
    ∧ ((1, -1) : Coord) ∉ (alivePositions (LifeWorld.fromPattern .glider (fun _ => 0))).map
        (fun q => (q.1 + 1, q.2 + 1)) := by
  refine ⟨by decide, by decide⟩

/-- C5 amended: after 4 generations the glider's alive-cell set equals the
original alive set translated by `(+1, -1)` (dead frontier cells excluded). -/
theorem C5_glider_translates :
    (∀ p ∈ alivePositions
        ((((LifeWorld.fromPattern .glider (fun _ => 0)).evolve).evolve).evolve).evolve,
      p ∈ (alivePositions (LifeWorld.fromPattern .glider (fun _ => 0))).map
        (fun q => (q.1 + 1, q.2 - 1)))
    ∧ (∀ p ∈ (alivePositions (LifeWorld.fromPattern .glider (fun _ => 0))).map
        (fun q => (q.1 + 1, q.2 - 1)),
      p ∈ alivePositions
        ((((LifeWorld.fromPattern .glider (fun _ => 0)).evolve).evolve).evolve).evolve) := by
  refine ⟨by decide, by decide⟩

/-! ### C9: random pattern seeding -/

theorem neg_tmod_eq (a b : Int) : (-a).tmod b = -(a.tmod b) := by
  rw [Int.tmod_def, Int.tmod_def, Int.neg_tdiv]
  ring

theorem tmod_bounds (a b : Int) (hb : 0 < b) : -b < a.tmod b ∧ a.tmod b < b := by
  rcases le_or_lt 0 a with ha | ha
  · have h1 := Int.tmod_nonneg b ha
    have h2 := Int.tmod_lt_of_pos a hb
    constructor <;> omega
  · have hna : 0 ≤ -a := by omega
    have h1 := Int.tmod_nonneg b hna
    have h2 := Int.tmod_lt_of_pos (-a) hb
    rw [neg_tmod_eq] at h1 h2
    constructor <;> omega

theorem roundSqrt_pos (n : Nat) (hn : 0 < n) : 0 < roundSqrt n := by
  have h1 : 1 ≤ Nat.findGreatest (fun s => s * s ≤ n) n :=
    Nat.le_findGreatest hn (by simpa using hn)
  unfold roundSqrt
  dsimp only
  split <;> omega

/-- A cell alive after a sequence of raises was one of the raised targets, or
was alive to begin with. -/
theorem foldl_raise_alive (f g : Nat → Int) (l : List Nat) :
    ∀ (w : LifeWorld), InvC w.active_cells →
    ∀ r, aliveAt ((l.foldl (fun acc i => acc.raise (f i) (g i)) w)).active_cells r = true →
      (∃ i ∈ l, r = ((f i, g i) : Coord)) ∨ aliveAt w.active_cells r = true := by
  induction l with
  | nil =>
    intro w _ r h
    exact Or.inr h
  | cons i t ih =>
    intro w hInv r h
    rw [List.foldl_cons] at h
    have hInv' : InvC (w.raise (f i) (g i)).active_cells :=
      set_cell_preserves_InvC w _ _ true hInv
    rcases ih _ hInv' r h with hmem | halive
    · obtain ⟨j, hj, hr⟩ := hmem
      exact Or.inl ⟨j, List.mem_cons_of_mem i hj, hr⟩
    · rw [LifeWorld.raise, set_cell_alive_update w (f i) (g i) true hInv r] at halive
      by_cases hr : r = ((f i, g i) : Coord)
      · exact Or.inl ⟨i, List.mem_cons_self i t, hr⟩
      · rw [if_neg hr] at halive
        exact Or.inr halive

/-- C9 amended: every cell raised by `Random(n)` seeding lies strictly inside
`(-s, s)²` where `s = roundSqrt n` — a bounding square of side `2s - 1`, not
`s`. -/
theorem C9_random_bounded (n : Nat) (rng : Nat → Int) (p : Coord)
    (hp : aliveAt (LifeWorld.fromPattern (.random n) rng).active_cells p = true) :
    -(roundSqrt n : Int) < p.1 ∧ p.1 < (roundSqrt n : Int)
    ∧ -(roundSqrt n : Int) < p.2 ∧ p.2 < (roundSqrt n : Int) := by
  simp only [LifeWorld.fromPattern] at hp
  have h := foldl_raise_alive
    (fun i => (rng (2 * i)).tmod ((roundSqrt n : Nat) : Int))
    (fun i => (rng (2 * i + 1)).tmod ((roundSqrt n : Nat) : Int))
    (List.range n) LifeWorld.new (by decide) p hp
  rcases h with hmem | habs
  · obtain ⟨i, hi, hr⟩ := hmem
    have hn : 0 < n := by
      rcases List.mem_range.mp hi with h
      omega
    have hside : (0 : Int) < ((roundSqrt n : Nat) : Int) := by
      exact_mod_cast roundSqrt_pos n hn
    have hb1 := tmod_bounds (rng (2 * i)) _ hside
    have hb2 := tmod_bounds (rng (2 * i + 1)) _ hside
    have hp1 : p.1 = (rng (2 * i)).tmod ((roundSqrt n : Nat) : Int) := by
      rw [hr]
    have hp2 : p.2 = (rng (2 * i + 1)).tmod ((roundSqrt n : Nat) : Int) := by
      rw [hr]
    rw [hp1, hp2]
    exact ⟨hb1.1, hb1.2, hb2.1, hb2.2⟩
  · simp [LifeWorld.new, aliveAt, findCell] at habs

theorem C9_random_bounded_witness :
    aliveAt (LifeWorld.fromPattern (.random 1) (fun _ => 0)).active_cells (0, 0) = true
    ∧ (-(roundSqrt 1 : Int) < (0 : Int) ∧ (0 : Int) < (roundSqrt 1 : Int)
       ∧ -(roundSqrt 1 : Int) < (0 : Int) ∧ (0 : Int) < (roundSqrt 1 : Int)) :=
  ⟨by decide, C9_random_bounded 1 (fun _ => 0) (0, 0) (by decide)⟩

/-- C9 fails as stated: with `n = 4` (side `round(sqrt 4) = 2`) and draws
`-3, 0, 1, 0, 0, ...`, the raised cells include `(-1, 0)` and `(1, 0)`,
which cannot both lie in any 2×2 square of integer cells. -/
theorem C9_counterexample :
    ¬ ∃ a b : Int, ∀ p ∈ alivePositions
        (LifeWorld.fromPattern (.random 4)
          (fun i => if i = 0 then -3 else if i = 2 then 1 else 0)),
        a ≤ p.1 ∧ p.1 < a + (roundSqrt 4 : Int)
        ∧ b ≤ p.2 ∧ p.2 < b + (roundSqrt 4 : Int) := by
  rintro ⟨a, b, h⟩
  have hr : ((roundSqrt 4 : Nat) : Int) = 2 := by decide
  have h1 := h (-1, 0) (by decide)
  have h2 := h (1, 0) (by decide)
  rw [hr] at h1 h2
  simp only [Prod.fst, Prod.snd] at h1 h2
  omega

/-! ### The delta list of `evolve` -/

theorem evolveDelta_some (c : LifeCell) (b : Bool) (h : evolveDelta c = some b) :
    c.alive = !b := by
  unfold evolveDelta at h
  rcases hca : c.alive <;> rw [hca] at h
  · rw [if_neg (by simp)] at h
    split at h
    · rw [← Option.some.inj h]
      rfl
    · exact absurd h (by simp)
  · rw [if_pos rfl] at h
    split at h
    · exact absurd h (by simp)
    · rw [← Option.some.inj h]
      rfl

theorem evolveDelta_live_23 (c : LifeCell) (ha : c.alive = true)
    (hn : c.num_neighbors = 2 ∨ c.num_neighbors = 3) : evolveDelta c = none := by
  unfold evolveDelta
  rcases hn with hn | hn <;> simp [ha, hn]

theorem evolveDelta_live_other (c : LifeCell) (ha : c.alive = true)
    (h2 : c.num_neighbors ≠ 2) (h3 : c.num_neighbors ≠ 3) :
    evolveDelta c = some false := by
  unfold evolveDelta
  simp [ha, h2, h3]

theorem evolveDelta_dead_3 (c : LifeCell) (ha : c.alive = false)
    (hn : c.num_neighbors = 3) : evolveDelta c = some true := by
  unfold evolveDelta
  simp [ha, hn]

theorem evolveDelta_dead_other (c : LifeCell) (ha : c.alive = false)
    (h3 : c.num_neighbors ≠ 3) : evolveDelta c = none := by
  unfold evolveDelta
  simp [ha, h3]

theorem deltas_positions_sublist (l : CellMap) :
    ((l.filterMap (fun e => (evolveDelta e.2).map (fun b => (b, e.1)))).map
      (fun d => d.2)).Sublist (l.map (·.1)) := by
  induction l with
  | nil => simp
  | cons e t ih =>
    rcases hd : evolveDelta e.2 with _ | b
    · rw [List.filterMap_cons, hd]
      simp only [Option.map_none', List.map_cons]
      exact ih.cons _
    · rw [List.filterMap_cons, hd]
      simp only [Option.map_some', List.map_cons]
      exact ih.cons₂ _

theorem evolveDeltas_positions_nodup (w : LifeWorld) (hnd : keysNodup w.active_cells) :
    ((evolveDeltas w).map (fun d => d.2)).Nodup :=
  (deltas_positions_sublist w.active_cells).nodup hnd

theorem mem_evolveDeltas (w : LifeWorld) (b : Bool) (r : Coord) :
    (b, r) ∈ evolveDeltas w ↔
      ∃ c, (r, c) ∈ w.active_cells ∧ evolveDelta c = some b := by
  unfold evolveDeltas
  rw [List.mem_filterMap]
  constructor
  · rintro ⟨e, he, hfe⟩
    rw [Option.map_eq_some'] at hfe
    obtain ⟨b', hb', heq⟩ := hfe
    have hbb : b' = b := congrArg Prod.fst heq
    have hrr : e.1 = r := congrArg Prod.snd heq
    refine ⟨e.2, ?_, ?_⟩
    · rw [← hrr]
      exact he
    · rw [← hbb]
      exact hb'
  · rintro ⟨c, hc, hd⟩
    refine ⟨(r, c), hc, ?_⟩
    rw [hd]
    rfl

theorem applyDeltas_cons (w : LifeWorld) (d : Bool × Coord) (t : List (Bool × Coord)) :
    applyDeltas w (d :: t) = applyDeltas (w.set_cell d.2.1 d.2.2 d.1) t := rfl

theorem applyDeltas_alive_not_mem (ds : List (Bool × Coord)) :
    ∀ (w : LifeWorld), InvC w.active_cells → ∀ r, r ∉ ds.map (fun d => d.2) →
      aliveAt (applyDeltas w ds).active_cells r = aliveAt w.active_cells r := by
  induction ds with
  | nil =>
    intro w _ r _
    rfl
  | cons d t ih =>
    intro w hInv r hr
    have hr1 : r ≠ d.2 := fun h => hr (by simp [h])
    have hr2 : r ∉ t.map (fun d => d.2) := fun h => hr (by simp; right; exact (by simpa using h))
    rw [applyDeltas_cons]
    rw [ih _ (set_cell_preserves_InvC w _ _ _ hInv) r hr2]
    rw [set_cell_alive_update w _ _ _ hInv r, if_neg hr1]

theorem applyDeltas_alive_mem (ds : List (Bool × Coord)) :
    ∀ (w : LifeWorld), InvC w.active_cells → (ds.map (fun d => d.2)).Nodup →
      ∀ b r, (b, r) ∈ ds → aliveAt (applyDeltas w ds).active_cells r = b := by
  induction ds with
  | nil =>
    intro w _ _ b r h
    simp at h
  | cons d t ih =>
    intro w hInv hnd b r hmem
    rw [List.map_cons, List.nodup_cons] at hnd
    rcases List.mem_cons.mp hmem with heq | hmem'
    · have hd1 : b = d.1 := congrArg Prod.fst heq
      have hd2 : r = d.2 := congrArg Prod.snd heq
      have hrnot : r ∉ t.map (fun d => d.2) := by
        rw [hd2]
        exact hnd.1
      rw [applyDeltas_cons]
      rw [applyDeltas_alive_not_mem t _ (set_cell_preserves_InvC w _ _ _ hInv) r hrnot]
      rw [set_cell_alive_update w _ _ _ hInv r, if_pos hd2, hd1]
    · rw [applyDeltas_cons]
      exact ih _ (set_cell_preserves_InvC w _ _ _ hInv) hnd.2 b r hmem'

/-- `evolve` leaves an absent coordinate absent-dead. -/
theorem evolve_alive_absent (w : LifeWorld) (hInv : InvC w.active_cells) (p : Coord)
    (hf : findCell w.active_cells p = none) :
    aliveAt w.evolve.active_cells p = false := by
  have hnodup := hInv.1
  have hac : w.evolve.active_cells = (applyDeltas w (evolveDeltas w)).active_cells := rfl
  rw [hac]
  have hnm : p ∉ (evolveDeltas w).map (fun d => d.2) := by
    intro hpm
    rw [List.mem_map] at hpm
    obtain ⟨d, hdmem, hd2⟩ := hpm
    obtain ⟨c', hc', _⟩ := (mem_evolveDeltas w d.1 d.2).mp hdmem
    rw [hd2] at hc'
    have h2 := findCell_of_mem _ _ _ hnodup hc'
    rw [hf] at h2
    exact absurd h2 (by simp)
  rw [applyDeltas_alive_not_mem _ w hInv p hnm]
  exact aliveAt_of_findCell_none _ _ hf

/-- A stored cell the classification does not flag keeps its alive state
through `evolve`. -/
theorem evolve_alive_nodelta (w : LifeWorld) (hInv : InvC w.active_cells) (p : Coord)
    (c : LifeCell) (hf : findCell w.active_cells p = some c)
    (hd : evolveDelta c = none) :
    aliveAt w.evolve.active_cells p = c.alive := by
  have hnodup := hInv.1
  have hac : w.evolve.active_cells = (applyDeltas w (evolveDeltas w)).active_cells := rfl
  rw [hac]
  have hnm : p ∉ (evolveDeltas w).map (fun d => d.2) := by
    intro hpm
    rw [List.mem_map] at hpm
    obtain ⟨d, hdmem, hd2⟩ := hpm
    obtain ⟨c', hc', hdc'⟩ := (mem_evolveDeltas w d.1 d.2).mp hdmem
    rw [hd2] at hc'
    have h2 := findCell_of_mem _ _ _ hnodup hc'
    rw [hf] at h2
    have hcc : c = c' := Option.some.inj h2
    rw [← hcc, hd] at hdc'
    exact absurd hdc' (by simp)
  rw [applyDeltas_alive_not_mem _ w hInv p hnm]
  exact aliveAt_of_findCell_some _ _ _ hf

/-- A stored cell the classification flags flips to the prescribed state
through `evolve`. -/
theorem evolve_alive_delta (w : LifeWorld) (hInv : InvC w.active_cells) (p : Coord)
    (c : LifeCell) (b : Bool) (hf : findCell w.active_cells p = some c)
    (hd : evolveDelta c = some b) :
    aliveAt w.evolve.active_cells p = b := by
  have hnd := evolveDeltas_positions_nodup w hInv.1
  have hac : w.evolve.active_cells = (applyDeltas w (evolveDeltas w)).active_cells := rfl
  rw [hac]
  have hmem : (b, p) ∈ evolveDeltas w := (mem_evolveDeltas w b p).mpr
    ⟨c, mem_of_findCell_eq_some _ _ _ hf, hd⟩
  exact applyDeltas_alive_mem _ w hInv hnd b p hmem

/-- C1: on a world satisfying the §3 invariants, one `evolve()` implements
the standard Life rule, all classifications reading the pre-evolution
state: a live cell survives iff its true pre-call live-Moore-neighbor count
is 2 or 3, a dead cell becomes alive iff it is exactly 3. -/
theorem C1_life_rule (w : LifeWorld) (hS : SpecInv w) (p : Coord) :
    (aliveAt w.active_cells p = true →
      ((liveCountAt w.active_cells p = 2 ∨ liveCountAt w.active_cells p = 3) →
        aliveAt w.evolve.active_cells p = true)
      ∧ (liveCountAt w.active_cells p ≠ 2 → liveCountAt w.active_cells p ≠ 3 →
        aliveAt w.evolve.active_cells p = false))
    ∧ (aliveAt w.active_cells p = false →
      ((liveCountAt w.active_cells p = 3 → aliveAt w.evolve.active_cells p = true)
      ∧ (liveCountAt w.active_cells p ≠ 3 →
        aliveAt w.evolve.active_cells p = false))) := by
  obtain ⟨⟨hnd, hcnt, hcl⟩, hsp⟩ := hS
  constructor
  · intro halive
    obtain ⟨c, hf, hca⟩ := (aliveAt_eq_true_iff _ _).mp halive
    have hnn : c.num_neighbors = liveCountAt w.active_cells p :=
      countsOK_find _ hcnt _ _ hf
    constructor
    · intro h23
      have hdelta : evolveDelta c = none := evolveDelta_live_23 c hca (by omega)
      rw [evolve_alive_nodelta w ⟨hnd, hcnt, hcl⟩ p c hf hdelta]
      exact hca
    · intro h2 h3
      have hdelta : evolveDelta c = some false :=
        evolveDelta_live_other c hca (by omega) (by omega)
      exact evolve_alive_delta w ⟨hnd, hcnt, hcl⟩ p c false hf hdelta
  · intro hdead
    rcases hf : findCell w.active_cells p with _ | c
    · have hzero : liveCountAt w.active_cells p = 0 :=
        liveCountAt_eq_zero_of_absent _ hcl _ hf
      constructor
      · intro h3
        omega
      · intro _
        exact evolve_alive_absent w ⟨hnd, hcnt, hcl⟩ p hf
    · have hca : c.alive = false := by
        have hh := aliveAt_of_findCell_some _ _ _ hf
        rw [hdead] at hh
        exact hh.symm
      have hnn : c.num_neighbors = liveCountAt w.active_cells p :=
        countsOK_find _ hcnt _ _ hf
      constructor
      · intro h3
        have hdelta : evolveDelta c = some true := evolveDelta_dead_3 c hca (by omega)
        exact evolve_alive_delta w ⟨hnd, hcnt, hcl⟩ p c true hf hdelta
      · intro h3
        have hdelta : evolveDelta c = none := evolveDelta_dead_other c hca (by omega)
        rw [evolve_alive_nodelta w ⟨hnd, hcnt, hcl⟩ p c hf hdelta]
        exact hca

theorem C1_life_rule_witness :
    SpecInv (LifeWorld.fromPattern .blinker (fun _ => 0))
    ∧ aliveAt (LifeWorld.fromPattern .blinker (fun _ => 0)).active_cells (0, 1) = true
    ∧ (liveCountAt (LifeWorld.fromPattern .blinker (fun _ => 0)).active_cells (0, 1) = 2
       ∨ liveCountAt (LifeWorld.fromPattern .blinker (fun _ => 0)).active_cells (0, 1) = 3)
    ∧ aliveAt (LifeWorld.fromPattern .blinker (fun _ => 0)).evolve.active_cells (0, 1)
        = true :=
  ⟨by decide, by decide, by decide,
   ((C1_life_rule (LifeWorld.fromPattern .blinker (fun _ => 0)) (by decide) (0, 1)).1
      (by decide)).1 (by decide)⟩

/-! ### C10: order independence of delta application -/

theorem delta_mem_unique (ds : List (Bool × Coord))
    (hnd : (ds.map (fun d => d.2)).Nodup) (b1 b2 : Bool) (r : Coord)
    (h1 : (b1, r) ∈ ds) (h2 : (b2, r) ∈ ds) : b1 = b2 := by
  induction ds with
  | nil => simp at h1
  | cons d t ih =>
    rw [List.map_cons, List.nodup_cons] at hnd
    rcases List.mem_cons.mp h1 with e1 | m1 <;> rcases List.mem_cons.mp h2 with e2 | m2
    · exact (congrArg Prod.fst e1).trans (congrArg Prod.fst e2).symm
    · exfalso
      have hm : r ∈ t.map (fun d => d.2) := List.mem_map_of_mem _ m2
      have hd2 : d.2 = r := (congrArg Prod.snd e1).symm
      exact hnd.1 (hd2 ▸ hm)
    · exfalso
      have hm : r ∈ t.map (fun d => d.2) := List.mem_map_of_mem _ m1
      have hd2 : d.2 = r := (congrArg Prod.snd e2).symm
      exact hnd.1 (hd2 ▸ hm)
    · exact ih hnd.2 m1 m2

theorem applyDeltas_SpecInv (ds : List (Bool × Coord)) :
    ∀ (w : LifeWorld), SpecInv w →
      (ds.map (fun d => d.2)).Nodup →
      (∀ d ∈ ds, aliveAt w.active_cells d.2 = !d.1) →
      SpecInv (applyDeltas w ds) := by
  induction ds with
  | nil =>
    intro w hS _ _
    exact hS
  | cons d t ih =>
    intro w hS hnd hpre
    rw [List.map_cons, List.nodup_cons] at hnd
    have hd := hpre d (List.mem_cons_self d t)
    have hstep : SpecInv (w.set_cell d.2.1 d.2.2 d.1) := by
      rcases hb : d.1
      · rw [hb] at hd
        have hd' : aliveAt w.active_cells (d.2.1, d.2.2) = true := hd
        obtain ⟨hInv', hsp', _⟩ := set_cell_lower_preserves w d.2.1 d.2.2 hS.1 hd'
        exact ⟨hInv', hsp' hS.2⟩
      · rw [hb] at hd
        have hd' : aliveAt w.active_cells (d.2.1, d.2.2) = false := hd
        obtain ⟨hInv', hsp', _⟩ := set_cell_raise_preserves w d.2.1 d.2.2 hS.1 hd'
        exact ⟨hInv', hsp' hS.2⟩
    rw [applyDeltas_cons]
    refine ih _ hstep hnd.2 ?_
    intro d' hd'
    have hne : d'.2 ≠ d.2 := by
      intro heq
      exact hnd.1 (heq ▸ List.mem_map_of_mem _ hd')
    rw [set_cell_alive_update w _ _ _ hS.1 d'.2, if_neg hne]
    exact hpre d' (List.mem_cons_of_mem d hd')

/-- On a world satisfying all §3 invariants, the stored record of every
coordinate is determined by the alive-reading function alone. -/
theorem SpecInv_determined (w : LifeWorld) (hS : SpecInv w) (r : Coord) :
    findCell w.active_cells r =
      (if aliveAt w.active_cells r = true ∨ 0 < liveCountAt w.active_cells r
       then some ⟨aliveAt w.active_cells r, liveCountAt w.active_cells r⟩
       else none) := by
  obtain ⟨⟨hnd, hcnt, hcl⟩, hsp⟩ := hS
  rcases hf : findCell w.active_cells r with _ | c
  · have hzero := liveCountAt_eq_zero_of_absent _ hcl _ hf
    have hdead := aliveAt_of_findCell_none _ _ hf
    rw [if_neg]
    simp [hdead, hzero]
  · have halive := aliveAt_of_findCell_some _ _ _ hf
    have hnn := countsOK_find _ hcnt _ _ hf
    have hcond : c.alive = true ∨ 0 < c.num_neighbors :=
      hsp (r, c) (mem_of_findCell_eq_some _ _ _ hf)
    rw [if_pos]
    · rw [halive, ← hnn]
    · rcases hcond with h | h
      · left
        rw [halive, h]
      · right
        rw [← hnn]
        exact h

theorem evolveDeltas_pre (w : LifeWorld) (hnd : keysNodup w.active_cells) :
    ∀ d ∈ evolveDeltas w, aliveAt w.active_cells d.2 = !d.1 := by
  intro d hd
  obtain ⟨c, hc, hdc⟩ := (mem_evolveDeltas w d.1 d.2).mp hd
  rw [aliveAt_of_findCell_some _ _ _ (findCell_of_mem _ _ _ hnd hc)]
  exact evolveDelta_some c d.1 hdc

/-- C10: on a world satisfying the §3 invariants the delta set of `evolve`
has pairwise-distinct coordinates, and applying it through `set_cell` in any
order yields the same final active set (same stored coordinates, alive flags,
and `num_neighbors` values) — so the result does not depend on hash-map
iteration order. -/
theorem C10_order_independent (w : LifeWorld) (hS : SpecInv w)
    (ds : List (Bool × Coord)) (hperm : ds.Perm (evolveDeltas w)) :
    ((evolveDeltas w).map (fun d => d.2)).Nodup
    ∧ ∀ r, findCell (applyDeltas w ds).active_cells r =
        findCell (applyDeltas w (evolveDeltas w)).active_cells r := by
  have hnodup := hS.1.1
  have hnd := evolveDeltas_positions_nodup w hnodup
  have hnd' : (ds.map (fun d => d.2)).Nodup := ((hperm.map _).nodup_iff).mpr hnd
  have hpre := evolveDeltas_pre w hnodup
  have hpre' : ∀ d ∈ ds, aliveAt w.active_cells d.2 = !d.1 :=
    fun d hd => hpre d (hperm.mem_iff.mp hd)
  have hS1 := applyDeltas_SpecInv ds w hS hnd' hpre'
  have hS2 := applyDeltas_SpecInv (evolveDeltas w) w hS hnd hpre
  have halive : ∀ r, aliveAt (applyDeltas w ds).active_cells r =
      aliveAt (applyDeltas w (evolveDeltas w)).active_cells r := by
    intro r
    by_cases hmem : r ∈ ds.map (fun d => d.2)
    · rw [List.mem_map] at hmem
      obtain ⟨d, hd, hd2⟩ := hmem
      have hd' : (d.1, r) ∈ ds := by
        rw [← hd2]
        exact hd
      have hde : (d.1, r) ∈ evolveDeltas w := hperm.mem_iff.mp hd'
      rw [applyDeltas_alive_mem ds w hS.1 hnd' d.1 r hd',
          applyDeltas_alive_mem (evolveDeltas w) w hS.1 hnd d.1 r hde]
    · have hmem' : r ∉ (evolveDeltas w).map (fun d => d.2) := by
        intro h
        exact hmem (((hperm.map _).mem_iff).mpr h)
      rw [applyDeltas_alive_not_mem ds w hS.1 r hmem,
          applyDeltas_alive_not_mem (evolveDeltas w) w hS.1 r hmem']
  have hcount : ∀ r, liveCountAt (applyDeltas w ds).active_cells r =
      liveCountAt (applyDeltas w (evolveDeltas w)).active_cells r := by
    intro r
    exact liveCountAt_congr _ _ r (fun q _ => halive q)
  refine ⟨hnd, ?_⟩
  intro r
  rw [SpecInv_determined _ hS1 r, SpecInv_determined _ hS2 r, halive r, hcount r]

theorem C10_order_independent_witness :
    SpecInv (LifeWorld.fromPattern .blinker (fun _ => 0))
    ∧ (((evolveDeltas (LifeWorld.fromPattern .blinker (fun _ => 0))).map
          (fun d => d.2)).Nodup
       ∧ ∀ r, findCell (applyDeltas (LifeWorld.fromPattern .blinker (fun _ => 0))
            (evolveDeltas (LifeWorld.fromPattern .blinker (fun _ => 0))).reverse).active_cells r =
          findCell (applyDeltas (LifeWorld.fromPattern .blinker (fun _ => 0))
            (evolveDeltas (LifeWorld.fromPattern .blinker (fun _ => 0)))).active_cells r) :=
  ⟨by decide,
   C10_order_independent (LifeWorld.fromPattern .blinker (fun _ => 0)) (by decide)
     (evolveDeltas (LifeWorld.fromPattern .blinker (fun _ => 0))).reverse
     (List.reverse_perm _)⟩

/-! ### C7: totality and the `i32` extremes

The Rust loop computes `x + dx` and `y + dy` on `i32`.  In debug builds this
addition is checked and panics on overflow; we model that with `checkedAdd`.
When both adds succeed they produce exactly the coordinates the unchecked
model uses, so the body is the unchecked `stepNeighbor`. -/

def I32_MIN : Int := -2147483648

def I32_MAX : Int := 2147483647

/-- Debug-profile `i32` addition: `none` models the overflow panic. -/
def checkedAdd (a b : Int) : Option Int :=
  if I32_MIN ≤ a + b ∧ a + b ≤ I32_MAX then some (a + b) else none

/-- `stepNeighbor` with the two neighbor-offset additions checked as `i32`
operations; on success the update is the unchecked one (same values). -/
def stepNeighborChecked (p : Coord) (alive new : Bool) (cells : CellMap)
    (o : Int × Int) : Option CellMap :=
  (checkedAdd p.1 o.1).bind fun _ =>
  (checkedAdd p.2 o.2).bind fun _ =>
  some (stepNeighbor p alive new cells o)

def applyNeighborsChecked (cells : CellMap) (p : Coord) (alive new : Bool) :
    Option CellMap :=
  mooreOffsets.foldl
    (fun acc o => acc.bind (fun cs => stepNeighborChecked p alive new cs o))
    (some cells)

/-- `set_cell` under debug-checked coordinate arithmetic. -/
def LifeWorld.set_cellChecked (w : LifeWorld) (x y : Int) (alive : Bool) :
    Option LifeWorld :=
  match findCell w.active_cells (x, y) with
  | some cell =>
    let dirty := cell.alive != alive
    let cells := setEntry w.active_cells (x, y) { cell with alive := alive }
    if !dirty then some { w with active_cells := cells }
    else (applyNeighborsChecked cells (x, y) alive false).map
      (fun cs => { w with active_cells := trimSelf cs (x, y) })
  | none =>
    let cells := setEntry w.active_cells (x, y) (LifeCell.new alive)
    if !alive then some { w with active_cells := cells }
    else (applyNeighborsChecked cells (x, y) alive alive).map
      (fun cs => { w with active_cells := trimSelf cs (x, y) })

/-- C7 fails as stated at the extremes: raising a cell at `x = i32::MAX`
overflows `x + 1` (a panic in debug builds). -/
theorem C7_counterexample :
    LifeWorld.set_cellChecked LifeWorld.new 2147483647 0 true = none := by decide

theorem mooreOffsets_small :
    ∀ o ∈ mooreOffsets, (-1 ≤ o.1 ∧ o.1 ≤ 1) ∧ (-1 ≤ o.2 ∧ o.2 ≤ 1) := by decide

theorem stepNeighborChecked_some (p : Coord) (a n : Bool) (cells : CellMap)
    (o : Int × Int) (ho : o ∈ mooreOffsets)
    (hx1 : I32_MIN < p.1) (hx2 : p.1 < I32_MAX)
    (hy1 : I32_MIN < p.2) (hy2 : p.2 < I32_MAX) :
    stepNeighborChecked p a n cells o = some (stepNeighbor p a n cells o) := by
  obtain ⟨⟨ho1, ho2⟩, ho3, ho4⟩ := mooreOffsets_small o ho
  unfold stepNeighborChecked checkedAdd
  rw [if_pos (by unfold I32_MIN I32_MAX at *; omega)]
  rw [if_pos (by unfold I32_MIN I32_MAX at *; omega)]
  rfl

theorem applyNeighborsChecked_some (p : Coord) (a n : Bool)
    (hx1 : I32_MIN < p.1) (hx2 : p.1 < I32_MAX)
    (hy1 : I32_MIN < p.2) (hy2 : p.2 < I32_MAX) :
    ∀ (l : List (Int × Int)), (∀ o ∈ l, o ∈ mooreOffsets) →
    ∀ cells : CellMap,
      l.foldl (fun acc o => acc.bind (fun cs => stepNeighborChecked p a n cs o))
          (some cells) =
        some (l.foldl (stepNeighbor p a n) cells) := by
  intro l
  induction l with
  | nil =>
    intro _ cells
    rfl
  | cons o t ih =>
    intro hmem cells
    rw [List.foldl_cons, List.foldl_cons]
    rw [show (some cells).bind (fun cs => stepNeighborChecked p a n cs o) =
        stepNeighborChecked p a n cells o from rfl]
    rw [stepNeighborChecked_some p a n cells o (hmem o (List.mem_cons_self o t))
      hx1 hx2 hy1 hy2]
    exact ih (fun o' ho' => hmem o' (List.mem_cons_of_mem o ho')) _

/-- C7 amended: away from the `i32` extremes (so `x ± 1`, `y ± 1` are
representable) `set_cell` — hence `raise`, `lower`, `toggle` — never fails:
the checked computation succeeds and agrees with the unchecked model.
Queries (`get`, `alive`, `num_alive`) perform no coordinate arithmetic. -/
theorem C7_interior_total (w : LifeWorld) (x y : Int) (a : Bool)
    (hx1 : I32_MIN < x) (hx2 : x < I32_MAX)
    (hy1 : I32_MIN < y) (hy2 : y < I32_MAX) :
    w.set_cellChecked x y a = some (w.set_cell x y a) := by
  have happly : ∀ (alive new : Bool) (cells : CellMap),
      applyNeighborsChecked cells (x, y) alive new =
        some (applyNeighbors cells (x, y) alive new) := by
    intro alive new cells
    exact applyNeighborsChecked_some (x, y) alive new hx1 hx2 hy1 hy2
      mooreOffsets (fun o ho => ho) cells
  rcases hf : findCell w.active_cells (x, y) with _ | c
  · simp only [LifeWorld.set_cellChecked, LifeWorld.set_cell, hf]
    cases a
    · rfl
    · rw [if_neg (by decide : ¬((!true) = true)), if_neg (by decide : ¬((!true) = true))]
      rw [happly]
      rfl
  · simp only [LifeWorld.set_cellChecked, LifeWorld.set_cell, hf]
    cases hb : (!(c.alive != a))
    · rw [if_neg Bool.false_ne_true, if_neg Bool.false_ne_true]
      rw [happly]
      rfl
    · rw [if_pos rfl, if_pos rfl]

theorem C7_interior_total_witness :
    (I32_MIN < (5 : Int) ∧ (5 : Int) < I32_MAX
     ∧ I32_MIN < (7 : Int) ∧ (7 : Int) < I32_MAX)
    ∧ LifeWorld.new.set_cellChecked 5 7 true = some (LifeWorld.new.set_cell 5 7 true) :=
  ⟨by decide,
   C7_interior_total LifeWorld.new 5 7 true (by decide) (by decide) (by decide) (by decide)⟩
